import Mathlib

/-!
Verification of the indexed min d-ary heap priority queue
(`src/typescript/src/min-indexed-d-heap.ts`, with the degree-2 specialization
`src/typescript/src/min-indexed-binary-heap.ts`).

The TypeScript class is shallowly embedded as a record of its fields together
with one Lean function per method.  JavaScript numbers used as keys are
modelled as `Int` (keys may be negative, and `-1` is the "absent" sentinel in
the position and inverse maps); the nullable value store `Array<T | null>`
is modelled as `List (Option T)` with `none` for `null`; a thrown `Error`
is modelled by `Except HeapErr`.  The comparator is passed to each operation
explicitly; the source stores it in the instance at construction and never
changes it, so the two presentations agree.

The `while`/`for` loops of `swim`, `sink`, `minChild`, `isMinHeapAt` are
modelled by structural recursion on an explicit iteration bound taken from
the loop itself: `swim` moves strictly towards the root, so its starting slot
bounds the number of iterations; `sink` moves to a strictly larger slot below
`size` each round, so `size` bounds its iterations; `minChild` scans exactly
`to - from` child slots.  Theorem `c8_termination_measures` proves those
bounds: extra iteration budget never changes any result.

The source reads the precomputed `parent` and `child` arrays inside
`swim` / `minChild` / `isMinHeapAt`.  The constructor fills `parent[i]` with
`⌊(i-1)/D⌋` and `child[i]` with `i*D+1` and no method ever writes either
array, so those reads are inlined as `parentIdx h.D i` and `i * h.D + 1`;
theorem `c4_construction` proves the stored arrays hold exactly these values.
-/

deriving instance DecidableEq for Except

namespace IndexedDHeap

/-- Error taxonomy of the heap (spec §4.1/§7); the source throws `Error`
objects with distinguishing messages. -/
inductive HeapErr : Type where
  | invalidCapacity
  | keyOutOfBounds
  | duplicateKey
  | unknownKey
  | nullValue
  | emptyQueue
deriving DecidableEq

/-- State of a `MinIndexedDHeap<T>` instance: the five parallel arrays and the
scalar fields of the class. -/
structure Heap (T : Type) where
  sz : Nat
  N : Nat
  D : Nat
  child : List Nat
  parent : List Int
  pm : List Int
  im : List Int
  values : List (Option T)
deriving DecidableEq

instance : Inhabited (Heap T) :=
  ⟨{ sz := 0, N := 0, D := 0, child := [], parent := [], pm := [], im := [],
     values := [] }⟩

/-- Constructor `new MinIndexedDHeap(degree, maxSize, comparator)`. -/
def mkHeap (T : Type) (degree maxSize : Int) : Except HeapErr (Heap T) :=
  if maxSize ≤ 0 then .error .invalidCapacity
  else
    let D : Int := max 2 degree
    let N : Nat := (max (D + 1) maxSize).toNat
    .ok
      { sz := 0
        N := N
        D := D.toNat
        child := (List.range N).map (fun i => i * D.toNat + 1)
        parent := (List.range N).map (fun i => ((i : Int) - 1).fdiv D)
        pm := List.replicate N (-1)
        im := List.replicate N (-1)
        values := List.replicate N none }

variable {T : Type}

/-- Key stored in slot `s`, i.e. `im[s]` (`-1` when the slot is unoccupied). -/
def slotKey (h : Heap T) (s : Nat) : Int := h.im.getD s (-1)

/-- Value seen through slot `s`, i.e. `values[im[s]]`.  When `im[s]` is the
`-1` sentinel the source would read `values[-1]`, which is `undefined`; that
undefined read is modelled as `none`. -/
def slotVal (h : Heap T) (s : Nat) : Option T :=
  if 0 ≤ slotKey h s then h.values.getD (slotKey h s).toNat none else none

/-- Comparator applied to two possibly-null values, `compare(a, b) < 0`.
A comparison against `undefined`/`null` yields `false`, matching the `NaN`
propagation of a numeric JavaScript comparator; no reachable state performs
such a comparison. -/
def lessOpt (cmp : T → T → Int) (a b : Option T) : Bool :=
  match a, b with
  | some x, some y => decide (cmp x y < 0)
  | _, _ => false

/-- Method `less(i, j)`: compares the values in slots `i` and `j`. -/
def less (cmp : T → T → Int) (h : Heap T) (i j : Nat) : Bool :=
  lessOpt cmp (slotVal h i) (slotVal h j)

/-- Method `lessValue(a, b)`: `compare(a, b) < 0` on raw values. -/
def lessValue (cmp : T → T → Int) (a b : Option T) : Bool := lessOpt cmp a b

/-- Write `pm[k] := s` for a key read from the inverse map.  A negative `k`
would be a JavaScript non-index property write, invisible to every indexed
read, hence a no-op on the modelled array contents; an in-range `k` is a
plain store. -/
def setKeyPos (pm : List Int) (k : Int) (s : Nat) : List Int :=
  if 0 ≤ k then pm.set k.toNat (s : Int) else pm

/-- Method `swap(i, j)`: exchanges the keys of slots `i` and `j` and updates
both position-map entries, in the statement order of the source. -/
def swap (h : Heap T) (i j : Nat) : Heap T :=
  let ki := h.im.getD i (-1)
  let kj := h.im.getD j (-1)
  { h with
    pm := setKeyPos (setKeyPos h.pm kj i) ki j
    im := (h.im.set i kj).set j ki }

/-- Parent slot `⌊(i-1)/D⌋` as read from the precomputed `parent` array and
used as an array index (only ever evaluated at `i > 0`, where it is
non-negative). -/
def parentIdx (D i : Nat) : Nat := (((i : Int) - 1).fdiv (D : Int)).toNat

/-- Loop body of method `swim(i)`, iteration bound made explicit. -/
def swimLoop (cmp : T → T → Int) : Nat → Heap T → Nat → Heap T
  | 0, h, _ => h
  | fuel + 1, h, i =>
    if 0 < i then
      if less cmp h i (parentIdx h.D i) then
        swimLoop cmp fuel (swap h i (parentIdx h.D i)) (parentIdx h.D i)
      else h
    else h

/-- Method `swim(i)`: the loop index strictly decreases, so `i` iterations
always suffice (theorem `c8_termination_measures`). -/
def swim (cmp : T → T → Int) (h : Heap T) (i : Nat) : Heap T :=
  swimLoop cmp i h i

/-- Scan loop of method `minChild(i)`: `j` runs over the child range, `best`
is the slot the running minimum lives in (initially `i` itself), `idx` the
best child found so far (initially `-1`, modelled `none`). -/
def minChildGo (cmp : T → T → Int) (h : Heap T) :
    Nat → Nat → Nat → Option Nat → Option Nat
  | 0, _, _, idx => idx
  | n + 1, j, best, idx =>
    if less cmp h j best then minChildGo cmp h n (j + 1) j (some j)
    else minChildGo cmp h n (j + 1) best idx

/-- Method `minChild(i)`: index of the smallest in-range child of `i` that is
less than slot `i`, or `none`. -/
def minChild (cmp : T → T → Int) (h : Heap T) (i : Nat) : Option Nat :=
  let f := i * h.D + 1
  let t := min h.sz (f + h.D)
  minChildGo cmp h (t - f) f i none

/-- Loop body of method `sink(i)`, iteration bound made explicit. -/
def sinkLoop (cmp : T → T → Int) : Nat → Heap T → Nat → Heap T
  | 0, h, _ => h
  | fuel + 1, h, i =>
    match minChild cmp h i with
    | some j => sinkLoop cmp fuel (swap h i j) j
    | none => h

/-- Method `sink(i)`: the slot strictly increases below `size` each round, so
`size` iterations always suffice (theorem `c8_termination_measures`). -/
def sink (cmp : T → T → Int) (h : Heap T) (i : Nat) : Heap T :=
  sinkLoop cmp h.sz h i

/-- Method `size()`. -/
def size (h : Heap T) : Nat := h.sz

/-- Method `isEmpty()`. -/
def isEmpty (h : Heap T) : Bool := h.sz == 0

/-- Method `contains(ki)`: `keyInBoundsOrThrow` then a position-map probe. -/
def contains (h : Heap T) (ki : Int) : Except HeapErr Bool :=
  if ki < 0 ∨ (h.N : Int) ≤ ki then .error .keyOutOfBounds
  else .ok (h.pm.getD ki.toNat (-1) != -1)

/-- Method `peekMinKeyIndex()`. -/
def peekMinKeyIndex (h : Heap T) : Except HeapErr Int :=
  if h.sz = 0 then .error .emptyQueue else .ok (h.im.getD 0 (-1))

/-- Method `peekMinValue()`. -/
def peekMinValue (h : Heap T) : Except HeapErr (Option T) :=
  if h.sz = 0 then .error .emptyQueue
  else .ok (h.values.getD (h.im.getD 0 (-1)).toNat none)

/-- Method `insert(ki, value)`: duplicate and null checks, then the key is
placed in slot `sz`, the value stored, `sz` incremented, and the new slot
swum. -/
def insert (cmp : T → T → Int) (h : Heap T) (ki : Int) (v : Option T) :
    Except HeapErr (Heap T) :=
  match contains h ki with
  | .error e => .error e
  | .ok true => .error .duplicateKey
  | .ok false =>
    match v with
    | none => .error .nullValue
    | some _ =>
      let h1 : Heap T :=
        { h with
          pm := h.pm.set ki.toNat (h.sz : Int)
          im := h.im.set h.sz ki
          values := h.values.set ki.toNat v
          sz := h.sz + 1 }
      .ok (swim cmp h1 h.sz)

/-- Method `valueOf(ki)`. -/
def valueOf (h : Heap T) (ki : Int) : Except HeapErr (Option T) :=
  match contains h ki with
  | .error e => .error e
  | .ok false => .error .unknownKey
  | .ok true => .ok (h.values.getD ki.toNat none)

/-- Method `delete(ki)`: swap the key's slot with the last occupied slot
(`--sz` happens first, so both sift passes already see the shrunk size), sink
then swim that slot, then clear the removed key's entries.  Returns the
removed value paired with the final state. -/
def delete (cmp : T → T → Int) (h : Heap T) (ki : Int) :
    Except HeapErr (Option T × Heap T) :=
  match contains h ki with
  | .error e => .error e
  | .ok false => .error .unknownKey
  | .ok true =>
    let i := (h.pm.getD ki.toNat (-1)).toNat
    let m := h.sz - 1
    let h2 := swap { h with sz := m } i m
    let h4 := swim cmp (sink cmp h2 i) i
    let value := h4.values.getD ki.toNat none
    .ok (value,
      { h4 with
        values := h4.values.set ki.toNat none
        pm := h4.pm.set ki.toNat (-1)
        im := h4.im.set m (-1) })

/-- Method `update(ki, value)`: store the new value unconditionally, then
sink and swim the key's slot; returns the previous value. -/
def update (cmp : T → T → Int) (h : Heap T) (ki : Int) (v : Option T) :
    Except HeapErr (Option T × Heap T) :=
  match contains h ki with
  | .error e => .error e
  | .ok false => .error .unknownKey
  | .ok true =>
    match v with
    | none => .error .nullValue
    | some _ =>
      let i := (h.pm.getD ki.toNat (-1)).toNat
      let oldValue := h.values.getD ki.toNat none
      let h1 : Heap T := { h with values := h.values.set ki.toNat v }
      .ok (oldValue, swim cmp (sink cmp h1 i) i)

/-- Method `decrease(ki, value)`: stores and swims only when the new value
compares less than the stored one, otherwise the state is returned
untouched. -/
def decrease (cmp : T → T → Int) (h : Heap T) (ki : Int) (v : Option T) :
    Except HeapErr (Heap T) :=
  match contains h ki with
  | .error e => .error e
  | .ok false => .error .unknownKey
  | .ok true =>
    match v with
    | none => .error .nullValue
    | some _ =>
      if lessValue cmp v (h.values.getD ki.toNat none) then
        let h1 : Heap T := { h with values := h.values.set ki.toNat v }
        .ok (swim cmp h1 (h.pm.getD ki.toNat (-1)).toNat)
      else .ok h

/-- Method `increase(ki, value)`: stores and sinks only when the stored value
compares less than the new one, otherwise the state is returned untouched. -/
def increase (cmp : T → T → Int) (h : Heap T) (ki : Int) (v : Option T) :
    Except HeapErr (Heap T) :=
  match contains h ki with
  | .error e => .error e
  | .ok false => .error .unknownKey
  | .ok true =>
    match v with
    | none => .error .nullValue
    | some _ =>
      if lessValue cmp (h.values.getD ki.toNat none) v then
        let h1 : Heap T := { h with values := h.values.set ki.toNat v }
        .ok (sink cmp h1 (h.pm.getD ki.toNat (-1)).toNat)
      else .ok h

/-- Method `pollMinKeyIndex()`. -/
def pollMinKeyIndex (cmp : T → T → Int) (h : Heap T) :
    Except HeapErr (Int × Heap T) :=
  match peekMinKeyIndex h with
  | .error e => .error e
  | .ok minKi =>
    match delete cmp h minKi with
    | .error e => .error e
    | .ok (_, h') => .ok (minKi, h')

/-- Method `pollMinValue()`: peeks the minimum value, deletes the minimum
key, returns the pre-deletion value. -/
def pollMinValue (cmp : T → T → Int) (h : Heap T) :
    Except HeapErr (Option T × Heap T) :=
  match peekMinValue h with
  | .error e => .error e
  | .ok minValue =>
    match peekMinKeyIndex h with
    | .error e => .error e
    | .ok ki =>
      match delete cmp h ki with
      | .error e => .error e
      | .ok (_, h') => .ok (minValue, h')

/-- Recursion of method `isMinHeapAt(i)` with its iteration bound explicit:
child slots strictly exceed their parent and are below `size`, so a budget of
`size` levels always suffices. -/
def isMinHeapAtGo (cmp : T → T → Int) (h : Heap T) : Nat → Nat → Bool
  | 0, _ => true
  | fuel + 1, i =>
    (List.range' (i * h.D + 1)
        (min h.sz (i * h.D + 1 + h.D) - (i * h.D + 1))).all
      (fun j => less cmp h i j && isMinHeapAtGo cmp h fuel j)

/-- Method `isMinHeap()`: the diagnostic validator, started at the root. -/
def isMinHeap (cmp : T → T → Int) (h : Heap T) : Bool :=
  isMinHeapAtGo cmp h h.sz 0

/-- Constructor of `MinIndexedBinaryHeap<T>`: `super(2, maxSize, comparator)`. -/
def mkBinaryHeap (T : Type) (maxSize : Int) : Except HeapErr (Heap T) :=
  mkHeap T 2 maxSize

/-- Public operations of the class, for stating trajectory properties. -/
inductive Op (T : Type) : Type where
  | insert (ki : Int) (v : Option T)
  | delete (ki : Int)
  | update (ki : Int) (v : Option T)
  | increase (ki : Int) (v : Option T)
  | decrease (ki : Int) (v : Option T)
  | pollMinKeyIndex
  | pollMinValue
  | peekMinKeyIndex
  | peekMinValue
  | containsKey (ki : Int)
  | valueOfKey (ki : Int)
  | sizeOf
  | emptyCheck
  | minHeapCheck
deriving DecidableEq

/-- Observable result of one public operation. -/
inductive Out (T : Type) : Type where
  | unit
  | key (k : Int)
  | val (v : Option T)
  | bool (b : Bool)
  | nat (n : Nat)
deriving DecidableEq

/-- One public call on the current state: its observable result and the state
it leaves behind. -/
def applyOp (cmp : T → T → Int) (h : Heap T) : Op T → Except HeapErr (Out T × Heap T)
  | .insert ki v => (insert cmp h ki v).map (fun h' => (.unit, h'))
  | .delete ki => (delete cmp h ki).map (fun r => (.val r.1, r.2))
  | .update ki v => (update cmp h ki v).map (fun r => (.val r.1, r.2))
  | .increase ki v => (increase cmp h ki v).map (fun h' => (.unit, h'))
  | .decrease ki v => (decrease cmp h ki v).map (fun h' => (.unit, h'))
  | .pollMinKeyIndex => (pollMinKeyIndex cmp h).map (fun r => (.key r.1, r.2))
  | .pollMinValue => (pollMinValue cmp h).map (fun r => (.val r.1, r.2))
  | .peekMinKeyIndex => (peekMinKeyIndex h).map (fun k => (.key k, h))
  | .peekMinValue => (peekMinValue h).map (fun v => (.val v, h))
  | .containsKey ki => (contains h ki).map (fun b => (.bool b, h))
  | .valueOfKey ki => (valueOf h ki).map (fun v => (.val v, h))
  | .sizeOf => .ok (.nat (size h), h)
  | .emptyCheck => .ok (.bool (isEmpty h), h)
  | .minHeapCheck => .ok (.bool (isMinHeap cmp h), h)

/-- State after a call sequence.  Every throwing path of the source raises
before its first mutation, so a failed call leaves the state unchanged. -/
def run (cmp : T → T → Int) (h : Heap T) : List (Op T) → Heap T
  | [] => h
  | op :: ops =>
    match applyOp cmp h op with
    | .ok (_, h') => run cmp h' ops
    | .error _ => run cmp h ops

/-- Observable results of a call sequence, error outcomes included. -/
def runTrace (cmp : T → T → Int) (h : Heap T) :
    List (Op T) → List (Except HeapErr (Out T))
  | [] => []
  | op :: ops =>
    match applyOp cmp h op with
    | .ok (o, h') => .ok o :: runTrace cmp h' ops
    | .error e => .error e :: runTrace cmp h ops

/-- States reachable from a freshly constructed heap by successful public
operations. -/
inductive Reachable (cmp : T → T → Int) : Heap T → Prop where
  | mk (degree maxSize : Int) (h : Heap T) :
      mkHeap T degree maxSize = .ok h → Reachable cmp h
  | step (h : Heap T) (op : Op T) (o : Out T) (h' : Heap T) :
      Reachable cmp h → applyOp cmp h op = .ok (o, h') → Reachable cmp h'

/-- Comparator contract of spec §5: consistency with a total order.  `flip`
is the sign antisymmetry `compare(a,b) < 0 ↔ compare(b,a) > 0`, and the two
transitivity laws are those of the induced strict and non-strict orders. -/
structure LawfulCmp (cmp : T → T → Int) : Prop where
  flip : ∀ a b, cmp a b < 0 ↔ 0 < cmp b a
  lt_trans : ∀ {a b c}, cmp a b < 0 → cmp b c < 0 → cmp a c < 0
  le_trans : ∀ {a b c}, cmp a b ≤ 0 → cmp b c ≤ 0 → cmp a c ≤ 0

/-- Slot `c` is one of the up-to-`D` children of slot `s`. -/
def isChild (D s c : Nat) : Prop := s * D + 1 ≤ c ∧ c < s * D + 1 + D

instance (D s c : Nat) : Decidable (isChild D s c) := by
  unfold isChild; infer_instance

/-- Heap-order invariant, phrased exactly as the code checks it: no in-range
child compares strictly less than its parent. -/
def heapOrd (cmp : T → T → Int) (h : Heap T) : Prop :=
  ∀ s c, c < h.sz → isChild h.D s c → less cmp h c s = false

/-- Heap order, except that slot `i` may still violate order against its
parent; the slots below `i` are additionally dominated by `i`'s parent. -/
def exceptUp (cmp : T → T → Int) (h : Heap T) (i : Nat) : Prop :=
  (∀ s c, c < h.sz → isChild h.D s c → c ≠ i → less cmp h c s = false) ∧
  (0 < i → ∀ c, c < h.sz → isChild h.D i c →
    less cmp h c (parentIdx h.D i) = false)

/-- Heap order, except that slot `i` may still violate order against its
children; the slots below `i` are additionally dominated by `i`'s parent. -/
def exceptDown (cmp : T → T → Int) (h : Heap T) (i : Nat) : Prop :=
  (∀ s c, c < h.sz → isChild h.D s c → s ≠ i → less cmp h c s = false) ∧
  (0 < i → ∀ c, c < h.sz → isChild h.D i c →
    less cmp h c (parentIdx h.D i) = false)

/-- Heap order, except on the edges incident to slot `i` in either direction;
the slots below `i` are additionally dominated by `i`'s parent. -/
def exceptAt (cmp : T → T → Int) (h : Heap T) (i : Nat) : Prop :=
  (∀ s c, c < h.sz → isChild h.D s c → s ≠ i → c ≠ i → less cmp h c s = false) ∧
  (0 < i → ∀ c, c < h.sz → isChild h.D i c →
    less cmp h c (parentIdx h.D i) = false)

/-- Occupied slots up to bound `M` hold a present value. -/
def Occ (h : Heap T) (M : Nat) : Prop :=
  ∀ s, s < M → ∃ v, slotVal h s = some v

/-- Structural invariant of the position/inverse maps, with the occupied
range `[0, M)` as an explicit parameter (during `delete`, the two sift passes
run while the key being removed is still parked in slot `sz`, so they
preserve this shape for `M = sz + 1` rather than for the current `sz`). -/
structure Maps (h : Heap T) (M : Nat) : Prop where
  pm_len : h.pm.length = h.N
  im_len : h.im.length = h.N
  val_len : h.values.length = h.N
  M_le : M ≤ h.N
  D_pos : 1 ≤ h.D
  act : ∀ k, k < h.N → h.pm.getD k (-1) ≠ -1 →
    0 ≤ h.pm.getD k (-1) ∧ (h.pm.getD k (-1)).toNat < M ∧
    h.im.getD (h.pm.getD k (-1)).toNat (-1) = (k : Int) ∧
    h.values.getD k none ≠ none
  occ : ∀ s, s < M →
    0 ≤ h.im.getD s (-1) ∧ (h.im.getD s (-1)).toNat < h.N ∧
    h.pm.getD (h.im.getD s (-1)).toNat (-1) = (s : Int)
  unocc : ∀ s, M ≤ s → s < h.N → h.im.getD s (-1) = -1

/-- Intermediate assertion of the `minChild` scan: `best`/`idx` describe the
running minimum over the already scanned child range `[f, j)`, measured
against the start slot `i0`. -/
def MCState (cmp : T → T → Int) (h : Heap T) (i0 f j best : Nat) :
    Option Nat → Prop
  | none => best = i0 ∧ ∀ c, f ≤ c → c < j → less cmp h c i0 = false
  | some b => best = b ∧ f ≤ b ∧ b < j ∧ less cmp h b i0 = true ∧
      ∀ c, f ≤ c → c < j → less cmp h c b = false

/-- Result specification of `minChild` over the child range `[f, t)` of slot
`i0`: `none` means no child beats `i0`; `some b` is an in-range child that
beats `i0` and that no scanned child beats. -/
def MCRes (cmp : T → T → Int) (h : Heap T) (i0 f t : Nat) :
    Option Nat → Prop
  | none => ∀ c, f ≤ c → c < t → less cmp h c i0 = false
  | some b => f ≤ b ∧ b < t ∧ less cmp h b i0 = true ∧
      ∀ c, f ≤ c → c < t → less cmp h c b = false

/-- Combined operational invariant: well-formed maps over the occupied range
plus heap order. -/
def Inv (cmp : T → T → Int) (h : Heap T) : Prop :=
  Maps h h.sz ∧ heapOrd cmp h

/-- Comparator used by the repository's test-suites. -/
def intCmp : Int → Int → Int := fun a b => a - b

/-- Concrete degree-3 heap of the spec's round-trip property. -/
def exH0 : Heap Int := ((mkHeap Int 3 10).toOption).getD default

/-- Concrete degree-2 heap used by several witnesses. -/
def exB0 : Heap Int := ((mkHeap Int 2 4).toOption).getD default

/-- Concrete capacity-3 heap used by the full-heap witness. -/
def exF0 : Heap Int := ((mkHeap Int 2 3).toOption).getD default

/-- Deliberately out-of-order state (child 1 below parent 0), exercising
`minChild` for the termination witness; not a reachable state. -/
def exJunk : Heap Int :=
  { sz := 2, N := 3, D := 2, child := [1, 3, 5], parent := [-1, 0, 0],
    pm := [0, 1, -1], im := [0, 1, -1],
    values := [some 9, some 1, none] }

/-! ## List access helpers -/

theorem getD_set_self {α : Type} (l : List α) (i : Nat) (a d : α)
    (h : i < l.length) : (l.set i a).getD i d = a := by
  simp [List.getD, List.getElem?_set_self, h]

theorem getD_set_ne {α : Type} (l : List α) {i j : Nat} (a d : α)
    (h : i ≠ j) : (l.set i a).getD j d = l.getD j d := by
  simp [List.getD, List.getElem?_set_ne h]

theorem getD_replicate {α : Type} {n i : Nat} (a d : α) (h : i < n) :
    (List.replicate n a).getD i d = a := by
  simp [List.getD, List.getElem?_replicate, h]

/-! ## Tree arithmetic -/

theorem parentIdx_eq (D : Nat) {i : Nat} (hi : 0 < i) :
    parentIdx D i = (i - 1) / D := by
  unfold parentIdx
  have h1 : (i : Int) - 1 = ((i - 1 : Nat) : Int) := by omega
  rw [h1]
  rcases Nat.eq_zero_or_pos D with hD | hD
  · subst hD
    simp [Int.fdiv_zero, Nat.div_zero]
  · rw [Int.fdiv_eq_tdiv (by positivity) (by positivity), ← Int.ofNat_tdiv]
    exact Int.toNat_natCast _

theorem parentIdx_lt {D i : Nat} (hi : 0 < i) : parentIdx D i < i := by
  rw [parentIdx_eq D hi]
  have := Nat.div_le_self (i - 1) D
  omega

theorem isChild_D_pos {D s c : Nat} (h : isChild D s c) : 0 < D := by
  obtain ⟨h1, h2⟩ := h; omega

theorem isChild_lt {D s c : Nat} (h : isChild D s c) : s < c := by
  have hD := isChild_D_pos h
  obtain ⟨h1, h2⟩ := h
  have : s ≤ s * D := Nat.le_mul_of_pos_right s hD
  omega

theorem isChild_pos {D s c : Nat} (h : isChild D s c) : 0 < c := by
  obtain ⟨h1, _⟩ := h; omega

theorem isChild_parentIdx {D c : Nat} (hD : 0 < D) (hc : 0 < c) :
    isChild D (parentIdx D c) c := by
  rw [parentIdx_eq D hc]
  have hdm := Nat.div_add_mod (c - 1) D
  have hlt := Nat.mod_lt (c - 1) hD
  have hcm : (c - 1) / D * D = D * ((c - 1) / D) := Nat.mul_comm _ _
  exact ⟨by omega, by omega⟩

theorem parentIdx_of_isChild {D s c : Nat} (h : isChild D s c) :
    parentIdx D c = s := by
  have hD := isChild_D_pos h
  have hc := isChild_pos h
  rw [parentIdx_eq D hc]
  obtain ⟨h1, h2⟩ := h
  have hle : s ≤ (c - 1) / D := (Nat.le_div_iff_mul_le hD).mpr (by omega)
  have he : (s + 1) * D = s * D + D := by ring
  have hlt : (c - 1) / D < s + 1 := (Nat.div_lt_iff_lt_mul hD).mpr (by omega)
  omega

/-! ## Comparator consequences -/

theorem LawfulCmp.le_of_nlt {cmp : T → T → Int} (L : LawfulCmp cmp) {a b : T}
    (h : ¬ cmp a b < 0) : cmp b a ≤ 0 := by
  have := L.flip a b; omega

theorem LawfulCmp.nlt_of_le {cmp : T → T → Int} (L : LawfulCmp cmp) {a b : T}
    (h : cmp a b ≤ 0) : ¬ cmp b a < 0 := by
  have := L.flip b a; omega

theorem lessOpt_true {cmp : T → T → Int} {a b : Option T}
    (h : lessOpt cmp a b = true) :
    ∃ x y, a = some x ∧ b = some y ∧ cmp x y < 0 := by
  cases a <;> cases b <;> simp_all [lessOpt]

theorem lessOpt_some {cmp : T → T → Int} {x y : T} :
    lessOpt cmp (some x) (some y) = true ↔ cmp x y < 0 := by
  simp [lessOpt]

theorem lessOpt_some_false {cmp : T → T → Int} {x y : T} :
    lessOpt cmp (some x) (some y) = false ↔ ¬ cmp x y < 0 := by
  simp [lessOpt]

theorem lessOpt_none_left {cmp : T → T → Int} {b : Option T} :
    lessOpt cmp none b = false := by
  cases b <;> rfl

theorem lessOpt_trans {cmp : T → T → Int} (L : LawfulCmp cmp)
    {a b c : Option T} (h1 : lessOpt cmp a b = true)
    (h2 : lessOpt cmp b c = true) : lessOpt cmp a c = true := by
  obtain ⟨x, y, rfl, rfl, hxy⟩ := lessOpt_true h1
  obtain ⟨y', z, hy, rfl, hyz⟩ := lessOpt_true h2
  cases hy
  exact lessOpt_some.mpr (L.lt_trans hxy hyz)

theorem lessOpt_asymm {cmp : T → T → Int} (L : LawfulCmp cmp)
    {a b : Option T} (h : lessOpt cmp a b = true) : lessOpt cmp b a = false := by
  obtain ⟨x, y, rfl, rfl, hxy⟩ := lessOpt_true h
  exact lessOpt_some_false.mpr (L.nlt_of_le (by omega))

theorem lessOpt_irrefl {cmp : T → T → Int} (L : LawfulCmp cmp)
    (a : Option T) : lessOpt cmp a a = false := by
  cases a with
  | none => rfl
  | some x =>
    refine lessOpt_some_false.mpr ?_
    have := L.flip x x; omega

theorem lessOpt_nlt_trans {cmp : T → T → Int} (L : LawfulCmp cmp)
    {x y z : T} (h1 : lessOpt cmp (some x) (some y) = false)
    (h2 : lessOpt cmp (some y) (some z) = false) :
    lessOpt cmp (some x) (some z) = false := by
  rw [lessOpt_some_false] at h1 h2 ⊢
  exact L.nlt_of_le (L.le_trans (L.le_of_nlt h2) (L.le_of_nlt h1))

/-! ## Basic state-shape lemmas -/

theorem setKeyPos_length (pm : List Int) (k : Int) (s : Nat) :
    (setKeyPos pm k s).length = pm.length := by
  unfold setKeyPos; split <;> simp

theorem swap_sz (h : Heap T) (i j : Nat) : (swap h i j).sz = h.sz := rfl

theorem swap_N (h : Heap T) (i j : Nat) : (swap h i j).N = h.N := rfl

theorem swap_D (h : Heap T) (i j : Nat) : (swap h i j).D = h.D := rfl

theorem swap_values (h : Heap T) (i j : Nat) : (swap h i j).values = h.values :=
  rfl

theorem swap_pm_length (h : Heap T) (i j : Nat) :
    (swap h i j).pm.length = h.pm.length := by
  show (setKeyPos (setKeyPos h.pm _ i) _ j).length = h.pm.length
  rw [setKeyPos_length, setKeyPos_length]

theorem swap_im_length (h : Heap T) (i j : Nat) :
    (swap h i j).im.length = h.im.length := by
  show ((h.im.set i _).set j _).length = h.im.length
  simp

theorem slotKey_swap (h : Heap T) (i j s : Nat) (hi : i < h.im.length)
    (hj : j < h.im.length) :
    slotKey (swap h i j) s =
      if s = j then slotKey h i
      else if s = i then slotKey h j
      else slotKey h s := by
  show ((h.im.set i (h.im.getD j (-1))).set j (h.im.getD i (-1))).getD s (-1) = _
  by_cases hsj : s = j
  · subst hsj
    rw [getD_set_self _ _ _ _ (by simpa using hj)]
    simp [slotKey]
  · rw [getD_set_ne _ _ _ (fun hh => hsj hh.symm)]
    by_cases hsi : s = i
    · subst hsi
      rw [getD_set_self _ _ _ _ hi]
      simp [slotKey, hsj]
    · rw [getD_set_ne _ _ _ (fun hh => hsi hh.symm)]
      simp [slotKey, hsj, hsi]

theorem slotVal_swap (h : Heap T) (i j s : Nat) (hi : i < h.im.length)
    (hj : j < h.im.length) :
    slotVal (swap h i j) s =
      if s = j then slotVal h i
      else if s = i then slotVal h j
      else slotVal h s := by
  unfold slotVal
  rw [slotKey_swap h i j s hi hj, swap_values]
  by_cases hsj : s = j
  · simp [hsj]
  · by_cases hsi : s = i
    · subst hsi; simp [hsj]
    · simp [hsj, hsi]

theorem swimLoop_values (cmp : T → T → Int) (fuel : Nat) :
    ∀ (h : Heap T) (i : Nat), (swimLoop cmp fuel h i).values = h.values := by
  induction fuel with
  | zero => intro h i; rfl
  | succ n ih =>
    intro h i
    show (if 0 < i then _ else h).values = h.values
    by_cases h1 : 0 < i
    · rw [if_pos h1]
      by_cases h2 : less cmp h i (parentIdx h.D i)
      · rw [if_pos h2, ih, swap_values]
      · rw [if_neg h2]
    · rw [if_neg h1]

theorem sinkLoop_values (cmp : T → T → Int) (fuel : Nat) :
    ∀ (h : Heap T) (i : Nat), (sinkLoop cmp fuel h i).values = h.values := by
  induction fuel with
  | zero => intro h i; rfl
  | succ n ih =>
    intro h i
    show (match minChild cmp h i with
      | some j => sinkLoop cmp n (swap h i j) j
      | none => h).values = h.values
    cases hm : minChild cmp h i with
    | some j => simp only []; rw [ih, swap_values]
    | none => rfl

theorem contains_ok_true {h : Heap T} {ki : Int} :
    contains h ki = .ok true ↔
      ¬ (ki < 0 ∨ (h.N : Int) ≤ ki) ∧ h.pm.getD ki.toNat (-1) ≠ -1 := by
  unfold contains
  split_ifs with hb
  · simp [hb]
  · simp [hb, bne_iff_ne]

theorem contains_ok_false {h : Heap T} {ki : Int} :
    contains h ki = .ok false ↔
      ¬ (ki < 0 ∨ (h.N : Int) ≤ ki) ∧ h.pm.getD ki.toNat (-1) = -1 := by
  unfold contains
  split_ifs with hb
  · simp [hb]
  · simp [hb, bne_iff_ne]

theorem lawful_intCmp : LawfulCmp intCmp := by
  constructor
  · intro a b; unfold intCmp; omega
  · intro a b c h1 h2; unfold intCmp at *; omega
  · intro a b c h1 h2; unfold intCmp at *; omega

/-! ## Loop measures -/

theorem swimLoop_zero (cmp : T → T → Int) (fuel : Nat) (h : Heap T) :
    swimLoop cmp fuel h 0 = h := by
  cases fuel with
  | zero => rfl
  | succ n => simp [swimLoop]

theorem minChildGo_some_range (cmp : T → T → Int) (h : Heap T) :
    ∀ (n j best : Nat) (idx : Option Nat) (b lo : Nat), lo ≤ j →
      (∀ b0, idx = some b0 → lo ≤ b0 ∧ b0 < j) →
      minChildGo cmp h n j best idx = some b → lo ≤ b ∧ b < j + n := by
  intro n
  induction n with
  | zero =>
    intro j best idx b lo _ hinv he
    have := hinv b he
    omega
  | succ n ih =>
    intro j best idx b lo hlo hinv he
    unfold minChildGo at he
    by_cases hc : less cmp h j best = true
    · rw [if_pos hc] at he
      have := ih (j + 1) j (some j) b lo (by omega)
        (by intro b0 hb0; cases hb0; omega) he
      omega
    · rw [if_neg hc] at he
      have := ih (j + 1) best idx b lo (by omega)
        (by intro b0 hb0; have := hinv b0 hb0; omega) he
      omega

theorem minChild_some_bounds (cmp : T → T → Int) (h : Heap T) {i j : Nat}
    (he : minChild cmp h i = some j) : i < j ∧ j < h.sz := by
  unfold minChild at he
  have hr := minChildGo_some_range cmp h
    (min h.sz (i * h.D + 1 + h.D) - (i * h.D + 1)) (i * h.D + 1) i none j
    (i * h.D + 1) (le_refl _) (by intro b0 hb0; cases hb0) he
  have hD : 0 < h.D := by
    by_contra hD0
    have hz : h.D = 0 := by omega
    have : i * h.D = 0 := by rw [hz, Nat.mul_zero]
    omega
  have : i ≤ i * h.D := Nat.le_mul_of_pos_right i hD
  omega

theorem minChild_none_of_le (cmp : T → T → Int) (h : Heap T) (i : Nat)
    (hi : h.sz ≤ i) : minChild cmp h i = none := by
  unfold minChild
  have h0 : min h.sz (i * h.D + 1 + h.D) - (i * h.D + 1) = 0 := by
    rcases Nat.eq_zero_or_pos h.D with hD | hD
    · rw [hD, Nat.mul_zero]; omega
    · have : i ≤ i * h.D := Nat.le_mul_of_pos_right i hD
      omega
  show minChildGo cmp h (min h.sz (i * h.D + 1 + h.D) - (i * h.D + 1))
    (i * h.D + 1) i none = none
  rw [h0]
  rfl

theorem sinkLoop_none (cmp : T → T → Int) (h : Heap T) (i : Nat)
    (hm : minChild cmp h i = none) (fuel : Nat) : sinkLoop cmp fuel h i = h := by
  cases fuel with
  | zero => rfl
  | succ n => simp [sinkLoop, hm]

theorem swimLoop_congr (cmp : T → T → Int) :
    ∀ (fuel1 fuel2 : Nat) (h : Heap T) (i : Nat), i ≤ fuel1 → i ≤ fuel2 →
      swimLoop cmp fuel1 h i = swimLoop cmp fuel2 h i := by
  intro fuel1
  induction fuel1 with
  | zero =>
    intro fuel2 h i h1 _
    have : i = 0 := by omega
    subst this
    rw [swimLoop_zero, swimLoop_zero]
  | succ n ih =>
    intro fuel2 h i h1 h2
    by_cases hi : 0 < i
    · cases fuel2 with
      | zero => omega
      | succ m =>
        simp only [swimLoop]
        rw [if_pos hi, if_pos hi]
        by_cases hl : less cmp h i (parentIdx h.D i) = true
        · rw [if_pos hl, if_pos hl]
          have hp := parentIdx_lt (D := h.D) hi
          exact ih m _ _ (by omega) (by omega)
        · rw [if_neg hl, if_neg hl]
    · have : i = 0 := by omega
      subst this
      rw [swimLoop_zero, swimLoop_zero]

theorem sinkLoop_congr (cmp : T → T → Int) :
    ∀ (fuel1 fuel2 : Nat) (h : Heap T) (i : Nat),
      h.sz - i ≤ fuel1 → h.sz - i ≤ fuel2 →
      sinkLoop cmp fuel1 h i = sinkLoop cmp fuel2 h i := by
  intro fuel1
  induction fuel1 with
  | zero =>
    intro fuel2 h i h1 _
    have hm : minChild cmp h i = none := minChild_none_of_le cmp h i (by omega)
    rw [sinkLoop_none cmp h i hm, sinkLoop_none cmp h i hm]
  | succ n ih =>
    intro fuel2 h i h1 h2
    cases hm : minChild cmp h i with
    | none => rw [sinkLoop_none cmp h i hm, sinkLoop_none cmp h i hm]
    | some j =>
      have hb := minChild_some_bounds cmp h hm
      cases fuel2 with
      | zero =>
        have := minChild_none_of_le cmp h i (by omega)
        rw [this] at hm
        exact absurd hm (by simp)
      | succ m =>
        simp only [sinkLoop, hm]
        have hsw : (swap h i j).sz = h.sz := swap_sz h i j
        exact ih m _ _ (by rw [hsw]; omega) (by rw [hsw]; omega)

/-! ## Claims C3, C4, C6, C7, C8, C9 -/

/-- C3: the claim says the diagnostic `isMinHeap()` returns true exactly when
every in-range child compares `≥` its parent, in particular on reachable
states with equal values.  The code instead demands the strict
`less(parent, child)` for every edge: on the reachable degree-2 state built
by `insert(0, 5); insert(1, 5)` the single in-range edge is `(0, 1)`, both
slots hold value `5`, the comparator yields `5 - 5 = 0 ≤ 0` (child ≥ parent,
heap-ordered), yet `isMinHeap()` evaluates to `false`. -/
theorem c3_isMinHeap_rejects_equal_values :
    isMinHeap intCmp
        (run intCmp exB0 [.insert 0 (some 5), .insert 1 (some 5)]) = false ∧
    (run intCmp exB0 [.insert 0 (some 5), .insert 1 (some 5)]).sz = 2 ∧
    (run intCmp exB0 [.insert 0 (some 5), .insert 1 (some 5)]).D = 2 ∧
    slotVal (run intCmp exB0 [.insert 0 (some 5), .insert 1 (some 5)]) 0 =
      some 5 ∧
    slotVal (run intCmp exB0 [.insert 0 (some 5), .insert 1 (some 5)]) 1 =
      some 5 ∧
    intCmp 5 5 ≤ 0 ∧
    (∀ s, s < 2 → ∀ c, c < 2 → isChild 2 s c → s = 0 ∧ c = 1) := by
  exact ⟨by decide, by decide, by decide, by decide, by decide, by decide,
    by decide⟩

/-- C4 (amended): construction fails with `InvalidCapacity` exactly when
`maxSize ≤ 0`; otherwise the effective degree is `max(2, degree)` and the
effective capacity is `max(max(2, degree) + 1, maxSize)` — the source
computes `max(D + 1, maxSize)` from the already-clamped degree `D`, which
agrees with the claim's `max(degree + 1, maxSize)` only for `degree ≥ 2` —
with `parent(s) = ⌊(s-1)/D⌋` and `firstChild(s) = s·D + 1` precomputed for
every slot and all position/inverse entries and values initialized to the
absent/unset sentinels. -/
theorem c4_construction (T : Type) (degree maxSize : Int) :
    (mkHeap T degree maxSize = .error .invalidCapacity ↔ maxSize ≤ 0) ∧
    (0 < maxSize → ∃ hp : Heap T,
      mkHeap T degree maxSize = .ok hp ∧
      (hp.D : Int) = max 2 degree ∧
      (hp.N : Int) = max (max 2 degree + 1) maxSize ∧
      hp.child = (List.range hp.N).map (fun s => s * hp.D + 1) ∧
      hp.parent =
        (List.range hp.N).map (fun s => ((s : Int) - 1).fdiv (hp.D : Int)) ∧
      hp.pm = List.replicate hp.N (-1) ∧
      hp.im = List.replicate hp.N (-1) ∧
      hp.values = (List.replicate hp.N none : List (Option T)) ∧
      hp.sz = 0) := by
  have h2 : (0 : Int) ≤ max 2 degree := le_trans (by norm_num) (le_max_left _ _)
  have hD : (((max 2 degree).toNat : Nat) : Int) = max 2 degree :=
    Int.toNat_of_nonneg h2
  by_cases hms : maxSize ≤ 0
  · constructor
    · simp [mkHeap, hms]
    · intro h0; omega
  · constructor
    · constructor
      · intro he
        rw [mkHeap, if_neg hms] at he
        exact absurd he (by simp)
      · intro h0; omega
    · intro h0
      have h3 : (0 : Int) ≤ max (max 2 degree + 1) maxSize :=
        le_trans (by omega) (le_max_left _ _)
      have hN : (((max (max 2 degree + 1) maxSize).toNat : Nat) : Int) =
          max (max 2 degree + 1) maxSize := Int.toNat_of_nonneg h3
      rw [mkHeap, if_neg hms]
      refine ⟨_, rfl, hD, hN, rfl, ?_, rfl, rfl, rfl, rfl⟩
      simp only [hD]

/-- C4 counterexample: at `degree = 0`, `maxSize = 1` the constructed
capacity is `max(max(2,0)+1, 1) = 3`, not the claimed
`max(degree + 1, maxSize) = 1`. -/
theorem c4_capacity_counterexample :
    ∃ hp : Heap Int, mkHeap Int 0 1 = .ok hp ∧
      ¬ ((hp.N : Int) = max (0 + 1) 1) := by
  refine ⟨((mkHeap Int 0 1).toOption).getD default, rfl, ?_⟩
  decide

theorem c4_construction_witness :
    mkHeap Int 5 (-2) = .error .invalidCapacity ∧
    (∃ hp : Heap Int,
      mkHeap Int 5 7 = .ok hp ∧
      (hp.D : Int) = max 2 5 ∧
      (hp.N : Int) = max (max 2 5 + 1) 7 ∧
      hp.child = (List.range hp.N).map (fun s => s * hp.D + 1) ∧
      hp.parent =
        (List.range hp.N).map (fun s => ((s : Int) - 1).fdiv (hp.D : Int)) ∧
      hp.pm = List.replicate hp.N (-1) ∧
      hp.im = List.replicate hp.N (-1) ∧
      hp.values = (List.replicate hp.N none : List (Option Int)) ∧
      hp.sz = 0) :=
  ⟨(c4_construction Int 5 (-2)).1.mpr (by norm_num),
   (c4_construction Int 5 7).2 (by norm_num)⟩

/-- C6: inserting `{0: 50, 1: 20, 2: 30}` into a fresh degree-3 heap of
capacity 10 with the ascending numeric comparator and polling the minimum
value three times yields `20, 30, 50` in order and leaves the heap empty. -/
theorem c6_round_trip :
    mkHeap Int 3 10 = .ok exH0 ∧
    runTrace intCmp exH0
      [.insert 0 (some 50), .insert 1 (some 20), .insert 2 (some 30),
       .pollMinValue, .pollMinValue, .pollMinValue] =
      [.ok .unit, .ok .unit, .ok .unit,
       .ok (.val (some 20)), .ok (.val (some 30)), .ok (.val (some 50))] ∧
    (run intCmp exH0
      [.insert 0 (some 50), .insert 1 (some 20), .insert 2 (some 30),
       .pollMinValue, .pollMinValue, .pollMinValue]).sz = 0 ∧
    isEmpty (run intCmp exH0
      [.insert 0 (some 50), .insert 1 (some 20), .insert 2 (some 30),
       .pollMinValue, .pollMinValue, .pollMinValue]) = true :=
  ⟨rfl, by decide, by decide, by decide⟩

/-- C7: `MinIndexedBinaryHeap` is `super(2, maxSize, comparator)`: a degree-2
`MinIndexedDHeap` and the binary specialization started from the same
`maxSize` and comparator produce identical observable results — in
particular identical `peekMinKeyIndex`/`peekMinValue` answers — and
identical states on every operation sequence. -/
theorem c7_binary_equivalence (T : Type) (cmp : T → T → Int) (maxSize : Int)
    (ops : List (Op T)) (hd hb : Heap T)
    (hdo : mkHeap T 2 maxSize = .ok hd)
    (hbo : mkBinaryHeap T maxSize = .ok hb) :
    runTrace cmp hb ops = runTrace cmp hd ops ∧
    run cmp hb ops = run cmp hd ops := by
  have heq : hb = hd := by
    rw [mkBinaryHeap, hdo] at hbo
    exact (Except.ok.inj hbo).symm
  rw [heq]
  exact ⟨rfl, rfl⟩

theorem c7_binary_equivalence_witness :
    runTrace intCmp (((mkBinaryHeap Int 4).toOption).getD default)
        [.insert 0 (some 30), .insert 1 (some 10), .peekMinKeyIndex,
         .peekMinValue, .pollMinValue, .peekMinKeyIndex, .peekMinValue] =
      runTrace intCmp exB0
        [.insert 0 (some 30), .insert 1 (some 10), .peekMinKeyIndex,
         .peekMinValue, .pollMinValue, .peekMinKeyIndex, .peekMinValue] ∧
    run intCmp (((mkBinaryHeap Int 4).toOption).getD default)
        [.insert 0 (some 30), .insert 1 (some 10), .peekMinKeyIndex,
         .peekMinValue, .pollMinValue, .peekMinKeyIndex, .peekMinValue] =
      run intCmp exB0
        [.insert 0 (some 30), .insert 1 (some 10), .peekMinKeyIndex,
         .peekMinValue, .pollMinValue, .peekMinKeyIndex, .peekMinValue] :=
  c7_binary_equivalence Int intCmp 4 _ exB0
    (((mkBinaryHeap Int 4).toOption).getD default) rfl rfl

/-- C8: the termination measures claimed for the two sift loops hold:
`minChild` only ever returns a slot strictly above its argument and strictly
below `size`, the parent slot read by `swim` is strictly below any positive
slot, and consequently both loops are insensitive to any iteration budget
beyond the modelled one (`i` for `swim`, `size` for `sink`): every public
operation completes. -/
theorem c8_termination_measures (cmp : T → T → Int) (h : Heap T) (i j : Nat) :
    (minChild cmp h i = some j → i < j ∧ j < h.sz) ∧
    (0 < i → parentIdx h.D i < i) ∧
    (∀ extra, swimLoop cmp (i + extra) h i = swim cmp h i) ∧
    (∀ extra, sinkLoop cmp (h.sz + extra) h i = sink cmp h i) := by
  refine ⟨fun he => minChild_some_bounds cmp h he, fun hi => parentIdx_lt hi,
    ?_, ?_⟩
  · intro extra
    exact swimLoop_congr cmp (i + extra) i h i (by omega) (le_refl i)
  · intro extra
    exact sinkLoop_congr cmp (h.sz + extra) h.sz h i (by omega) (by omega)

theorem c8_termination_measures_witness :
    (0 < 1 ∧ 1 < exJunk.sz) ∧ parentIdx exJunk.D 1 < 1 ∧
    swimLoop intCmp (1 + 3) exJunk 1 = swim intCmp exJunk 1 ∧
    sinkLoop intCmp (exJunk.sz + 2) exJunk 0 = sink intCmp exJunk 0 :=
  ⟨(c8_termination_measures intCmp exJunk 0 1).1 (by decide),
   (c8_termination_measures intCmp exJunk 1 0).2.1 (by decide),
   (c8_termination_measures intCmp exJunk 1 0).2.2.1 3,
   (c8_termination_measures intCmp exJunk 0 1).2.2.2 2⟩

/-- C9: inserting an already-active key raises `DuplicateKey`.  The duplicate
check is the first statement of `insert`, before any write, so the failed
call performs no mutation at all: the computation aborts with the error and
the pre-call state is retained (`run` keeps the prior state on error). -/
theorem c9_duplicate_insert (cmp : T → T → Int) (h : Heap T) (ki : Int)
    (v : Option T) (hc : contains h ki = .ok true) :
    insert cmp h ki v = .error .duplicateKey ∧
    run cmp h [.insert ki v] = h := by
  have he : insert cmp h ki v = .error .duplicateKey := by
    unfold insert
    rw [hc]
  refine ⟨he, ?_⟩
  show (match applyOp cmp h (.insert ki v) with
    | .ok (_, h') => run cmp h' []
    | .error _ => run cmp h []) = h
  have : applyOp cmp h (.insert ki v) = .error .duplicateKey := by
    show (insert cmp h ki v).map _ = _
    rw [he]
    rfl
  rw [this]
  rfl

theorem c9_duplicate_insert_witness :
    insert intCmp (run intCmp exB0 [.insert 0 (some 7)]) 0 (some 9) =
      .error .duplicateKey ∧
    run intCmp (run intCmp exB0 [.insert 0 (some 7)]) [.insert 0 (some 9)] =
      run intCmp exB0 [.insert 0 (some 7)] :=
  c9_duplicate_insert intCmp (run intCmp exB0 [.insert 0 (some 7)]) 0
    (some 9) (by decide)

/-! ## Claim C5 -/

/-- C5: for an active key holding `cur`, `decrease(k, v)` with `v ≥ cur`
under the comparator returns the state unchanged (the value is not stored,
nothing is sifted), and `increase(k, v)` with `v ≤ cur` likewise; when the
value strictly improves, it is stored and the key's slot is swum
(`decrease`) resp. sunk (`increase`). -/
theorem c5_monotone_guards (cmp : T → T → Int) (L : LawfulCmp cmp)
    (h : Heap T) (ki : Int) (x cur : T)
    (hb : ¬ (ki < 0 ∨ (h.N : Int) ≤ ki))
    (hact : h.pm.getD ki.toNat (-1) ≠ -1)
    (hcur : h.values.getD ki.toNat none = some cur) :
    (0 ≤ cmp x cur → decrease cmp h ki (some x) = .ok h) ∧
    (cmp x cur ≤ 0 → increase cmp h ki (some x) = .ok h) ∧
    (cmp x cur < 0 →
      decrease cmp h ki (some x) =
        .ok (swim cmp { h with values := h.values.set ki.toNat (some x) }
          (h.pm.getD ki.toNat (-1)).toNat) ∧
      ∀ h', decrease cmp h ki (some x) = .ok h' →
        h'.values.getD ki.toNat none = some x) ∧
    (0 < cmp x cur →
      increase cmp h ki (some x) =
        .ok (sink cmp { h with values := h.values.set ki.toNat (some x) }
          (h.pm.getD ki.toNat (-1)).toNat) ∧
      ∀ h', increase cmp h ki (some x) = .ok h' →
        h'.values.getD ki.toNat none = some x) := by
  have hct : contains h ki = .ok true := contains_ok_true.mpr ⟨hb, hact⟩
  have hlen : ki.toNat < h.values.length := by
    by_contra hh
    rw [List.getD_eq_default _ _ (by omega)] at hcur
    exact Option.noConfusion hcur
  refine ⟨?_, ?_, ?_, ?_⟩
  · intro hge
    have hno : lessValue cmp (some x) (h.values.getD ki.toNat none) = false := by
      rw [hcur]
      simp only [lessValue, lessOpt, decide_eq_false_iff_not]
      omega
    unfold decrease
    rw [hct, hno]
    rfl
  · intro hle
    have hno : lessValue cmp (h.values.getD ki.toNat none) (some x) = false := by
      rw [hcur]
      simp only [lessValue, lessOpt, decide_eq_false_iff_not]
      have := L.flip cur x
      omega
    unfold increase
    rw [hct, hno]
    rfl
  · intro hlt
    have hyes : lessValue cmp (some x) (h.values.getD ki.toNat none) = true := by
      rw [hcur]
      simp only [lessValue, lessOpt, decide_eq_true_eq]
      omega
    have heq : decrease cmp h ki (some x) =
        .ok (swim cmp { h with values := h.values.set ki.toNat (some x) }
          (h.pm.getD ki.toNat (-1)).toNat) := by
      unfold decrease
      rw [hct, hyes]
      rfl
    refine ⟨heq, ?_⟩
    intro h' he
    rw [heq] at he
    cases Except.ok.inj he
    show (swim cmp _ _).values.getD ki.toNat none = some x
    unfold swim
    rw [swimLoop_values]
    exact getD_set_self _ _ _ _ hlen
  · intro hgt
    have hyes : lessValue cmp (h.values.getD ki.toNat none) (some x) = true := by
      rw [hcur]
      simp only [lessValue, lessOpt, decide_eq_true_eq]
      have := L.flip cur x
      omega
    have heq : increase cmp h ki (some x) =
        .ok (sink cmp { h with values := h.values.set ki.toNat (some x) }
          (h.pm.getD ki.toNat (-1)).toNat) := by
      unfold increase
      rw [hct, hyes]
      rfl
    refine ⟨heq, ?_⟩
    intro h' he
    rw [heq] at he
    cases Except.ok.inj he
    show (sink cmp _ _).values.getD ki.toNat none = some x
    unfold sink
    rw [sinkLoop_values]
    exact getD_set_self _ _ _ _ hlen

theorem c5_monotone_guards_witness :
    decrease intCmp (run intCmp exB0 [.insert 0 (some 10)]) 0 (some 20) =
      .ok (run intCmp exB0 [.insert 0 (some 10)]) ∧
    increase intCmp (run intCmp exB0 [.insert 0 (some 10)]) 0 (some 4) =
      .ok (run intCmp exB0 [.insert 0 (some 10)]) ∧
    decrease intCmp (run intCmp exB0 [.insert 0 (some 10)]) 0 (some 3) =
      .ok (swim intCmp
        { run intCmp exB0 [.insert 0 (some 10)] with
          values :=
            (run intCmp exB0 [.insert 0 (some 10)]).values.set 0 (some 3) }
        ((run intCmp exB0 [.insert 0 (some 10)]).pm.getD 0 (-1)).toNat) ∧
    increase intCmp (run intCmp exB0 [.insert 0 (some 10)]) 0 (some 42) =
      .ok (sink intCmp
        { run intCmp exB0 [.insert 0 (some 10)] with
          values :=
            (run intCmp exB0 [.insert 0 (some 10)]).values.set 0 (some 42) }
        ((run intCmp exB0 [.insert 0 (some 10)]).pm.getD 0 (-1)).toNat) :=
  ⟨(c5_monotone_guards intCmp lawful_intCmp _ 0 20 10 (by decide) (by decide)
      (by decide)).1 (by decide),
   (c5_monotone_guards intCmp lawful_intCmp _ 0 4 10 (by decide) (by decide)
      (by decide)).2.1 (by decide),
   ((c5_monotone_guards intCmp lawful_intCmp _ 0 3 10 (by decide) (by decide)
      (by decide)).2.2.1 (by decide)).1,
   ((c5_monotone_guards intCmp lawful_intCmp _ 0 42 10 (by decide) (by decide)
      (by decide)).2.2.2 (by decide)).1⟩

/-! ## Structural invariant: preservation by swap and the sift loops -/

theorem swap_pm_getD {h : Heap T} {M : Nat} (mp : Maps h M) {i j : Nat}
    (hi : i < M) (hj : j < M) (k : Nat) :
    (swap h i j).pm.getD k (-1) =
      if (k : Int) = h.im.getD i (-1) then (j : Int)
      else if (k : Int) = h.im.getD j (-1) then (i : Int)
      else h.pm.getD k (-1) := by
  obtain ⟨hi0, hiN, hipm⟩ := mp.occ i hi
  obtain ⟨hj0, hjN, hjpm⟩ := mp.occ j hj
  show (setKeyPos (setKeyPos h.pm (h.im.getD j (-1)) i)
    (h.im.getD i (-1)) j).getD k (-1) = _
  unfold setKeyPos
  rw [if_pos hj0, if_pos hi0]
  by_cases hki : k = (h.im.getD i (-1)).toNat
  · subst hki
    rw [getD_set_self _ _ _ _ (by rw [List.length_set, mp.pm_len]; exact hiN)]
    rw [if_pos (by omega)]
  · rw [getD_set_ne _ _ _ (fun hh => hki hh.symm)]
    by_cases hkj : k = (h.im.getD j (-1)).toNat
    · subst hkj
      rw [getD_set_self _ _ _ _ (by rw [mp.pm_len]; exact hjN)]
      rw [if_neg (by omega), if_pos (by omega)]
    · rw [getD_set_ne _ _ _ (fun hh => hkj hh.symm)]
      rw [if_neg (by omega), if_neg (by omega)]

theorem swap_im_getD (h : Heap T) {i j : Nat} (s : Nat)
    (hi : i < h.im.length) (hj : j < h.im.length) :
    (swap h i j).im.getD s (-1) =
      if s = j then h.im.getD i (-1)
      else if s = i then h.im.getD j (-1)
      else h.im.getD s (-1) :=
  slotKey_swap h i j s hi hj

theorem Maps_swap {h : Heap T} {M : Nat} (mp : Maps h M) {i j : Nat}
    (hi : i < M) (hj : j < M) : Maps (swap h i j) M := by
  have hiN : i < h.N := lt_of_lt_of_le hi mp.M_le
  have hjN : j < h.N := lt_of_lt_of_le hj mp.M_le
  have hiL : i < h.im.length := by rw [mp.im_len]; exact hiN
  have hjL : j < h.im.length := by rw [mp.im_len]; exact hjN
  obtain ⟨hi0, hiN', hipm⟩ := mp.occ i hi
  obtain ⟨hj0, hjN', hjpm⟩ := mp.occ j hj
  have him : ∀ s, (swap h i j).im.getD s (-1) =
      if s = j then h.im.getD i (-1)
      else if s = i then h.im.getD j (-1)
      else h.im.getD s (-1) := fun s => swap_im_getD h s hiL hjL
  refine ⟨?_, ?_, ?_, mp.M_le, mp.D_pos, ?_, ?_, ?_⟩
  · rw [swap_pm_length, mp.pm_len]; rfl
  · rw [swap_im_length, mp.im_len]; rfl
  · rw [swap_values, mp.val_len]; rfl
  · -- active keys
    intro k hk hne
    rw [show (swap h i j).N = h.N from rfl] at hk
    rw [swap_pm_getD mp hi hj k] at hne ⊢
    rw [swap_values]
    by_cases hki : (k : Int) = h.im.getD i (-1)
    · rw [if_pos hki] at hne ⊢
      have hk_eq : k = (h.im.getD i (-1)).toNat := by omega
      have hval := (mp.act k hk (by rw [hk_eq, hipm]; omega)).2.2.2
      refine ⟨by omega, by rw [Int.toNat_natCast]; exact hj, ?_, hval⟩
      rw [Int.toNat_natCast, him j, if_pos rfl, hki]
    · rw [if_neg hki] at hne ⊢
      by_cases hkj : (k : Int) = h.im.getD j (-1)
      · rw [if_pos hkj] at hne ⊢
        have hk_eq : k = (h.im.getD j (-1)).toNat := by omega
        have hval := (mp.act k hk (by rw [hk_eq, hjpm]; omega)).2.2.2
        refine ⟨by omega, by rw [Int.toNat_natCast]; exact hi, ?_, hval⟩
        rw [Int.toNat_natCast, him i]
        by_cases hij : i = j
        · rw [if_pos hij, hij]; exact hkj.symm
        · rw [if_neg hij, if_pos rfl]; exact hkj.symm
      · rw [if_neg hkj] at hne ⊢
        obtain ⟨ha0, haM, haim, hav⟩ := mp.act k hk hne
        refine ⟨ha0, haM, ?_, hav⟩
        rw [him (h.pm.getD k (-1)).toNat]
        have hne1 : (h.pm.getD k (-1)).toNat ≠ j := by
          intro hh; rw [hh] at haim; exact hkj haim.symm
        have hne2 : (h.pm.getD k (-1)).toNat ≠ i := by
          intro hh; rw [hh] at haim; exact hki haim.symm
        rw [if_neg hne1, if_neg hne2]
        exact haim
  · -- occupied slots
    intro s hs
    rw [him s]
    by_cases hsj : s = j
    · subst hsj
      rw [if_pos rfl]
      refine ⟨hi0, hiN', ?_⟩
      rw [swap_pm_getD mp hi hj, if_pos (by omega)]
    · rw [if_neg hsj]
      by_cases hsi : s = i
      · subst hsi
        rw [if_pos rfl]
        refine ⟨hj0, hjN', ?_⟩
        rw [swap_pm_getD mp hi hj]
        rw [if_neg, if_pos (by omega)]
        intro heq
        have : h.im.getD s (-1) = h.im.getD j (-1) := by omega
        rw [this, hjpm] at hipm
        exact hsj (by omega)
      · rw [if_neg hsi]
        obtain ⟨hs0, hsN, hspm⟩ := mp.occ s hs
        refine ⟨hs0, hsN, ?_⟩
        rw [swap_pm_getD mp hi hj]
        rw [if_neg, if_neg]
        · exact hspm
        · intro heq
          have : h.im.getD s (-1) = h.im.getD j (-1) := by omega
          rw [this, hjpm] at hspm
          exact hsj (by omega)
        · intro heq
          have : h.im.getD s (-1) = h.im.getD i (-1) := by omega
          rw [this, hipm] at hspm
          exact hsi (by omega)
  · -- unoccupied slots
    intro s hMs hsN
    rw [show (swap h i j).N = h.N from rfl] at hsN
    rw [him s, if_neg (by omega), if_neg (by omega)]
    exact mp.unocc s hMs hsN

theorem Maps.occVal {h : Heap T} {M : Nat} (mp : Maps h M) {s : Nat}
    (hs : s < M) : ∃ v, slotVal h s = some v := by
  obtain ⟨h0, hN, hpm⟩ := mp.occ s hs
  have hact := mp.act (h.im.getD s (-1)).toNat hN (by rw [hpm]; omega)
  unfold slotVal slotKey
  rw [if_pos h0]
  cases hval : h.values.getD (h.im.getD s (-1)).toNat none with
  | none => exact absurd hval hact.2.2.2
  | some v => exact ⟨v, rfl⟩

theorem swimLoop_sz (cmp : T → T → Int) (fuel : Nat) :
    ∀ (h : Heap T) (i : Nat), (swimLoop cmp fuel h i).sz = h.sz := by
  induction fuel with
  | zero => intro h i; rfl
  | succ n ih =>
    intro h i
    simp only [swimLoop]
    by_cases h1 : 0 < i
    · rw [if_pos h1]
      by_cases h2 : less cmp h i (parentIdx h.D i) = true
      · rw [if_pos h2, ih, swap_sz]
      · rw [if_neg h2]
    · rw [if_neg h1]

theorem swimLoop_D (cmp : T → T → Int) (fuel : Nat) :
    ∀ (h : Heap T) (i : Nat), (swimLoop cmp fuel h i).D = h.D := by
  induction fuel with
  | zero => intro h i; rfl
  | succ n ih =>
    intro h i
    simp only [swimLoop]
    by_cases h1 : 0 < i
    · rw [if_pos h1]
      by_cases h2 : less cmp h i (parentIdx h.D i) = true
      · rw [if_pos h2, ih, swap_D]
      · rw [if_neg h2]
    · rw [if_neg h1]

theorem sinkLoop_sz (cmp : T → T → Int) (fuel : Nat) :
    ∀ (h : Heap T) (i : Nat), (sinkLoop cmp fuel h i).sz = h.sz := by
  induction fuel with
  | zero => intro h i; rfl
  | succ n ih =>
    intro h i
    simp only [sinkLoop]
    cases hm : minChild cmp h i with
    | some j => simp only []; rw [ih, swap_sz]
    | none => rfl

theorem sinkLoop_D (cmp : T → T → Int) (fuel : Nat) :
    ∀ (h : Heap T) (i : Nat), (sinkLoop cmp fuel h i).D = h.D := by
  induction fuel with
  | zero => intro h i; rfl
  | succ n ih =>
    intro h i
    simp only [sinkLoop]
    cases hm : minChild cmp h i with
    | some j => simp only []; rw [ih, swap_D]
    | none => rfl

theorem swimLoop_N (cmp : T → T → Int) (fuel : Nat) :
    ∀ (h : Heap T) (i : Nat), (swimLoop cmp fuel h i).N = h.N := by
  induction fuel with
  | zero => intro h i; rfl
  | succ n ih =>
    intro h i
    simp only [swimLoop]
    by_cases h1 : 0 < i
    · rw [if_pos h1]
      by_cases h2 : less cmp h i (parentIdx h.D i) = true
      · rw [if_pos h2, ih, swap_N]
      · rw [if_neg h2]
    · rw [if_neg h1]

theorem sinkLoop_N (cmp : T → T → Int) (fuel : Nat) :
    ∀ (h : Heap T) (i : Nat), (sinkLoop cmp fuel h i).N = h.N := by
  induction fuel with
  | zero => intro h i; rfl
  | succ n ih =>
    intro h i
    simp only [sinkLoop]
    cases hm : minChild cmp h i with
    | some j => simp only []; rw [ih, swap_N]
    | none => rfl

theorem swimLoop_maps (cmp : T → T → Int) :
    ∀ (fuel : Nat) (h : Heap T) (i M : Nat), i < M → Maps h M →
      Maps (swimLoop cmp fuel h i) M := by
  intro fuel
  induction fuel with
  | zero => intro h i M _ mp; exact mp
  | succ n ih =>
    intro h i M hi mp
    simp only [swimLoop]
    by_cases h1 : 0 < i
    · rw [if_pos h1]
      by_cases h2 : less cmp h i (parentIdx h.D i) = true
      · rw [if_pos h2]
        have hp := parentIdx_lt (D := h.D) h1
        exact ih _ _ M (by omega) (Maps_swap mp hi (by omega))
      · rw [if_neg h2]; exact mp
    · rw [if_neg h1]; exact mp

theorem sinkLoop_maps (cmp : T → T → Int) :
    ∀ (fuel : Nat) (h : Heap T) (i M : Nat), h.sz ≤ M → i < M → Maps h M →
      Maps (sinkLoop cmp fuel h i) M := by
  intro fuel
  induction fuel with
  | zero => intro h i M _ _ mp; exact mp
  | succ n ih =>
    intro h i M hsz hi mp
    simp only [sinkLoop]
    cases hm : minChild cmp h i with
    | some j =>
      simp only []
      obtain ⟨hij, hjsz⟩ := minChild_some_bounds cmp h hm
      refine ih _ _ M ?_ (by omega) (Maps_swap mp hi (by omega))
      rw [swap_sz]; exact hsz
    | none => exact mp

theorem swap_keep {h : Heap T} {M : Nat} (mp : Maps h M) {i j s0 : Nat}
    (hi : i < M) (hj : j < M) (hs0 : s0 < M) (hsi : s0 ≠ i) (hsj : s0 ≠ j) :
    (swap h i j).im.getD s0 (-1) = h.im.getD s0 (-1) ∧
    (swap h i j).pm.getD (h.im.getD s0 (-1)).toNat (-1) =
      h.pm.getD (h.im.getD s0 (-1)).toNat (-1) := by
  have hiL : i < h.im.length := by
    rw [mp.im_len]; exact lt_of_lt_of_le hi mp.M_le
  have hjL : j < h.im.length := by
    rw [mp.im_len]; exact lt_of_lt_of_le hj mp.M_le
  obtain ⟨hs00, hs0N, hs0pm⟩ := mp.occ s0 hs0
  obtain ⟨hi0, hiN, hipm⟩ := mp.occ i hi
  obtain ⟨hj0, hjN, hjpm⟩ := mp.occ j hj
  constructor
  · rw [swap_im_getD h s0 hiL hjL, if_neg hsj, if_neg hsi]
  · rw [swap_pm_getD mp hi hj]
    rw [if_neg, if_neg]
    · intro heq
      have : h.im.getD s0 (-1) = h.im.getD j (-1) := by omega
      rw [this, hjpm] at hs0pm
      exact hsj (by omega)
    · intro heq
      have : h.im.getD s0 (-1) = h.im.getD i (-1) := by omega
      rw [this, hipm] at hs0pm
      exact hsi (by omega)

theorem swimLoop_keep (cmp : T → T → Int) :
    ∀ (fuel : Nat) (h : Heap T) (i M s0 : Nat), Maps h M → i < M → s0 < M →
      i < s0 →
      (swimLoop cmp fuel h i).im.getD s0 (-1) = h.im.getD s0 (-1) ∧
      (swimLoop cmp fuel h i).pm.getD (h.im.getD s0 (-1)).toNat (-1) =
        h.pm.getD (h.im.getD s0 (-1)).toNat (-1) := by
  intro fuel
  induction fuel with
  | zero => intro h i M s0 _ _ _ _; exact ⟨rfl, rfl⟩
  | succ n ih =>
    intro h i M s0 mp hi hs0 his0
    simp only [swimLoop]
    by_cases h1 : 0 < i
    · rw [if_pos h1]
      by_cases h2 : less cmp h i (parentIdx h.D i) = true
      · rw [if_pos h2]
        have hp := parentIdx_lt (D := h.D) h1
        have hkp := swap_keep mp hi (j := parentIdx h.D i) (by omega) hs0
          (by omega) (by omega)
        have hrec := ih (swap h i (parentIdx h.D i)) (parentIdx h.D i) M s0
          (Maps_swap mp hi (by omega)) (by omega) hs0 (by omega)
        refine ⟨by rw [hrec.1, hkp.1], ?_⟩
        have := hrec.2
        rw [hkp.1] at this
        rw [this, hkp.2]
      · rw [if_neg h2]; exact ⟨rfl, rfl⟩
    · rw [if_neg h1]; exact ⟨rfl, rfl⟩

theorem sinkLoop_keep (cmp : T → T → Int) :
    ∀ (fuel : Nat) (h : Heap T) (i M s0 : Nat), Maps h M → h.sz ≤ M →
      i < s0 → s0 < M → h.sz ≤ s0 →
      (sinkLoop cmp fuel h i).im.getD s0 (-1) = h.im.getD s0 (-1) ∧
      (sinkLoop cmp fuel h i).pm.getD (h.im.getD s0 (-1)).toNat (-1) =
        h.pm.getD (h.im.getD s0 (-1)).toNat (-1) := by
  intro fuel
  induction fuel with
  | zero => intro h i M s0 _ _ _ _ _; exact ⟨rfl, rfl⟩
  | succ n ih =>
    intro h i M s0 mp hszM his0 hs0 hszs0
    simp only [sinkLoop]
    cases hm : minChild cmp h i with
    | some j =>
      simp only []
      obtain ⟨hij, hjsz⟩ := minChild_some_bounds cmp h hm
      have hkp := swap_keep mp (i := i) (j := j) (by omega) (by omega) hs0
        (by omega) (by omega)
      have hrec := ih (swap h i j) j M s0 (Maps_swap mp (by omega) (by omega))
        (by rw [swap_sz]; exact hszM) (by omega) hs0
        (by rw [swap_sz]; exact hszs0)
      refine ⟨by rw [hrec.1, hkp.1], ?_⟩
      have := hrec.2
      rw [hkp.1] at this
      rw [this, hkp.2]
    | none => exact ⟨rfl, rfl⟩

/-! ## Heap order: the minChild scan -/

theorem lessOpt_false_left {cmp : T → T → Int} (L : LawfulCmp cmp)
    {a b c : Option T} (h1 : lessOpt cmp b c = true)
    (h2 : lessOpt cmp a c = false) : lessOpt cmp a b = false := by
  cases hb : lessOpt cmp a b
  · rfl
  · exact absurd (lessOpt_trans L hb h1) (by simp [h2])

theorem minChildGo_spec {cmp : T → T → Int} (h : Heap T) (L : LawfulCmp cmp)
    (i0 f : Nat) :
    ∀ (n j best : Nat) (idx : Option Nat), f ≤ j →
      MCState cmp h i0 f j best idx →
      MCRes cmp h i0 f (j + n) (minChildGo cmp h n j best idx) := by
  intro n
  induction n with
  | zero =>
    intro j best idx hfj hst
    rw [Nat.add_zero]
    cases idx with
    | none => exact hst.2
    | some b =>
      obtain ⟨_, h1, h2, h3, h4⟩ := hst
      exact ⟨h1, h2, h3, h4⟩
  | succ n ih =>
    intro j best idx hfj hst
    simp only [minChildGo]
    have harith : j + (n + 1) = (j + 1) + n := by omega
    rw [harith]
    by_cases hc : less cmp h j best = true
    · rw [if_pos hc]
      refine ih (j + 1) j (some j) (by omega) ?_
      cases idx with
      | none =>
        obtain ⟨hbe, hprev⟩ := hst
        subst hbe
        refine ⟨rfl, by omega, by omega, hc, ?_⟩
        intro c hc1 hc2
        by_cases hcj : c = j
        · subst hcj; exact lessOpt_irrefl L _
        · exact lessOpt_false_left L hc (hprev c hc1 (by omega))
      | some b =>
        obtain ⟨hbe, hb1, hb2, hb3, hb4⟩ := hst
        subst hbe
        refine ⟨rfl, by omega, by omega, lessOpt_trans L hc hb3, ?_⟩
        intro c hc1 hc2
        by_cases hcj : c = j
        · subst hcj; exact lessOpt_irrefl L _
        · exact lessOpt_false_left L hc (hb4 c hc1 (by omega))
    · rw [if_neg hc]
      refine ih (j + 1) best idx (by omega) ?_
      cases idx with
      | none =>
        obtain ⟨hbe, hprev⟩ := hst
        subst hbe
        refine ⟨rfl, ?_⟩
        intro c hc1 hc2
        by_cases hcj : c = j
        · subst hcj; exact Bool.eq_false_iff.mpr hc
        · exact hprev c hc1 (by omega)
      | some b =>
        obtain ⟨hbe, hb1, hb2, hb3, hb4⟩ := hst
        subst hbe
        refine ⟨rfl, by omega, by omega, hb3, ?_⟩
        intro c hc1 hc2
        by_cases hcj : c = j
        · subst hcj; exact Bool.eq_false_iff.mpr hc
        · exact hb4 c hc1 (by omega)

theorem minChild_spec (cmp : T → T → Int) (h : Heap T) (L : LawfulCmp cmp)
    (i : Nat) :
    MCRes cmp h i (i * h.D + 1) (min h.sz (i * h.D + 1 + h.D))
      (minChild cmp h i) := by
  by_cases hft : i * h.D + 1 ≤ min h.sz (i * h.D + 1 + h.D)
  · have hst : MCState cmp h i (i * h.D + 1) (i * h.D + 1) i none :=
      ⟨rfl, fun c hc1 hc2 => absurd (lt_of_le_of_lt hc1 hc2) (lt_irrefl _)⟩
    have := minChildGo_spec h L i (i * h.D + 1)
      (min h.sz (i * h.D + 1 + h.D) - (i * h.D + 1)) (i * h.D + 1) i none
      (le_refl _) hst
    rw [show (i * h.D + 1) + (min h.sz (i * h.D + 1 + h.D) - (i * h.D + 1)) =
      min h.sz (i * h.D + 1 + h.D) from by omega] at this
    exact this
  · have h0 : min h.sz (i * h.D + 1 + h.D) - (i * h.D + 1) = 0 := by omega
    show MCRes cmp h i _ _
      (minChildGo cmp h (min h.sz (i * h.D + 1 + h.D) - (i * h.D + 1))
        (i * h.D + 1) i none)
    rw [h0]
    intro c hc1 hc2
    omega

/-! ## Heap order: preservation through swim and sink -/

theorem exceptUp_swap_parent {cmp : T → T → Int} (L : LawfulCmp cmp)
    {h : Heap T} {M : Nat} (mp : Maps h M) (hszM : h.sz ≤ M) {i : Nat}
    (hi : 0 < i) (hisz : i < h.sz)
    (hl : less cmp h i (parentIdx h.D i) = true)
    (hex : exceptUp cmp h i) :
    exceptUp cmp (swap h i (parentIdx h.D i)) (parentIdx h.D i) := by
  have hD := mp.D_pos
  have hpi : parentIdx h.D i < i := parentIdx_lt hi
  have hiL : i < h.im.length := by
    rw [mp.im_len]; have := mp.M_le; omega
  have hpL : parentIdx h.D i < h.im.length := by omega
  have hsv : ∀ s, slotVal (swap h i (parentIdx h.D i)) s =
      if s = parentIdx h.D i then slotVal h i
      else if s = i then slotVal h (parentIdx h.D i)
      else slotVal h s := fun s => slotVal_swap h i (parentIdx h.D i) s hiL hpL
  have hchip : isChild h.D (parentIdx h.D i) i := isChild_parentIdx hD hi
  constructor
  · intro s c hcsz hch hcp
    rw [swap_sz] at hcsz
    rw [swap_D] at hch
    show lessOpt cmp (slotVal (swap h i (parentIdx h.D i)) c)
      (slotVal (swap h i (parentIdx h.D i)) s) = false
    by_cases hci : c = i
    · rw [hci] at hch ⊢
      have hsp : s = parentIdx h.D i := (parentIdx_of_isChild hch).symm
      subst hsp
      rw [hsv i, hsv (parentIdx h.D i), if_neg (by omega), if_pos rfl,
        if_pos rfl]
      exact lessOpt_asymm L hl
    · by_cases hsi : s = i
      · rw [hsi] at hch ⊢
        rw [hsv c, hsv i, if_neg hcp, if_neg hci, if_neg (by omega),
          if_pos rfl]
        exact hex.2 hi c hcsz hch
      · by_cases hsp : s = parentIdx h.D i
        · rw [hsp] at hch ⊢
          rw [hsv c, hsv (parentIdx h.D i), if_neg hcp, if_neg hci,
            if_pos rfl]
          exact lessOpt_false_left L hl (hex.1 _ c hcsz hch hci)
        · rw [hsv c, hsv s, if_neg hcp, if_neg hci, if_neg hsp, if_neg hsi]
          exact hex.1 s c hcsz hch hci
  · intro hp0 c hcsz hch
    rw [swap_sz] at hcsz
    rw [swap_D] at hch ⊢
    have hqp : parentIdx h.D (parentIdx h.D i) < parentIdx h.D i :=
      parentIdx_lt hp0
    show lessOpt cmp (slotVal (swap h i (parentIdx h.D i)) c)
      (slotVal (swap h i (parentIdx h.D i))
        (parentIdx h.D (parentIdx h.D i))) = false
    rw [hsv (parentIdx h.D (parentIdx h.D i)), if_neg (by omega),
      if_neg (by omega)]
    have hchqp : isChild h.D (parentIdx h.D (parentIdx h.D i))
        (parentIdx h.D i) := isChild_parentIdx hD hp0
    by_cases hci : c = i
    · rw [hci]
      rw [hsv i, if_neg (by omega), if_pos rfl]
      exact hex.1 _ (parentIdx h.D i) (by omega) hchqp (by omega)
    · have hcp : c ≠ parentIdx h.D i := by
        have := isChild_lt hch; omega
      rw [hsv c, if_neg hcp, if_neg hci]
      have e1 : lessOpt cmp (slotVal h c) (slotVal h (parentIdx h.D i)) =
          false := hex.1 _ c hcsz hch hci
      have e2 : lessOpt cmp (slotVal h (parentIdx h.D i))
          (slotVal h (parentIdx h.D (parentIdx h.D i))) = false :=
        hex.1 _ (parentIdx h.D i) (by omega) hchqp (by omega)
      obtain ⟨vc, hvc⟩ := mp.occVal (show c < M by omega)
      obtain ⟨vp, hvp⟩ := mp.occVal (show parentIdx h.D i < M by omega)
      obtain ⟨vq, hvq⟩ :=
        mp.occVal (show parentIdx h.D (parentIdx h.D i) < M by omega)
      rw [hvc, hvp] at e1
      rw [hvp, hvq] at e2
      rw [hvc, hvq]
      exact lessOpt_nlt_trans L e1 e2

theorem swimLoop_ord {cmp : T → T → Int} (L : LawfulCmp cmp) :
    ∀ (fuel : Nat) (h : Heap T) (i M : Nat), i ≤ fuel → Maps h M →
      h.sz ≤ M → i < h.sz → exceptUp cmp h i →
      heapOrd cmp (swimLoop cmp fuel h i) := by
  intro fuel
  induction fuel with
  | zero =>
    intro h i M h1 mp hszM hisz hex
    have hi0 : i = 0 := by omega
    subst hi0
    show heapOrd cmp h
    intro s c hcsz hch
    exact hex.1 s c hcsz hch (by have := isChild_pos hch; omega)
  | succ n ih =>
    intro h i M h1 mp hszM hisz hex
    simp only [swimLoop]
    by_cases h0 : 0 < i
    · rw [if_pos h0]
      by_cases hl : less cmp h i (parentIdx h.D i) = true
      · rw [if_pos hl]
        have hp := parentIdx_lt (D := h.D) h0
        refine ih (swap h i (parentIdx h.D i)) (parentIdx h.D i) M (by omega)
          (Maps_swap mp (by omega) (by omega)) ?_ ?_
          (exceptUp_swap_parent L mp hszM h0 hisz hl hex)
        · rw [swap_sz]; exact hszM
        · rw [swap_sz]; omega
      · rw [if_neg hl]
        intro s c hcsz hch
        by_cases hci : c = i
        · subst hci
          have hsp : parentIdx h.D c = s := parentIdx_of_isChild hch
          rw [← hsp]
          exact Bool.eq_false_iff.mpr hl
        · exact hex.1 s c hcsz hch hci
    · rw [if_neg h0]
      intro s c hcsz hch
      exact hex.1 s c hcsz hch (by have := isChild_pos hch; omega)

theorem exceptAt_of_exceptDown {cmp : T → T → Int} {h : Heap T} {i : Nat}
    (hex : exceptDown cmp h i) : exceptAt cmp h i :=
  ⟨fun s c hc hch hsi _ => hex.1 s c hc hch hsi, hex.2⟩

theorem exceptDown_swap_minChild {cmp : T → T → Int} (L : LawfulCmp cmp)
    {h : Heap T} {M : Nat} (mp : Maps h M) (hszM : h.sz ≤ M) {i j : Nat}
    (hmc : minChild cmp h i = some j) (hex : exceptAt cmp h i) :
    exceptDown cmp (swap h i j) j := by
  obtain ⟨hij, hjsz⟩ := minChild_some_bounds cmp h hmc
  have hD := mp.D_pos
  have hiL : i < h.im.length := by
    rw [mp.im_len]; have := mp.M_le; omega
  have hjL : j < h.im.length := by
    rw [mp.im_len]; have := mp.M_le; omega
  have hsv : ∀ s, slotVal (swap h i j) s =
      if s = j then slotVal h i
      else if s = i then slotVal h j
      else slotVal h s := fun s => slotVal_swap h i j s hiL hjL
  have hres := minChild_spec cmp h L i
  rw [hmc] at hres
  obtain ⟨hf, ht, hlt, hmin⟩ := hres
  have hchij : isChild h.D i j := ⟨hf, by omega⟩
  constructor
  · intro s c hcsz hch hsj
    rw [swap_sz] at hcsz
    rw [swap_D] at hch
    show lessOpt cmp (slotVal (swap h i j) c) (slotVal (swap h i j) s) = false
    by_cases hcj : c = j
    · rw [hcj] at hch ⊢
      have hsi : s = i := by
        have e1 := parentIdx_of_isChild hch
        have e2 := parentIdx_of_isChild hchij
        omega
      rw [hsi]
      rw [hsv j, hsv i, if_pos rfl, if_neg (by omega), if_pos rfl]
      exact lessOpt_asymm L hlt
    · by_cases hci : c = i
      · rw [hci] at hch ⊢
        have h0i : 0 < i := isChild_pos hch
        have hsi : s = parentIdx h.D i := (parentIdx_of_isChild hch).symm
        subst hsi
        have hppi : parentIdx h.D i < i := parentIdx_lt h0i
        rw [hsv i, hsv (parentIdx h.D i), if_neg (by omega), if_pos rfl,
          if_neg (by omega), if_neg (by omega)]
        exact hex.2 h0i j hjsz hchij
      · by_cases hsi2 : s = i
        · rw [hsi2] at hch ⊢
          rw [hsv c, hsv i, if_neg hcj, if_neg hci, if_neg (by omega),
            if_pos rfl]
          obtain ⟨hch1, hch2⟩ := hch
          exact hmin c hch1 (by omega)
        · rw [hsv c, hsv s, if_neg hcj, if_neg hci, if_neg hsj, if_neg hsi2]
          exact hex.1 s c hcsz hch hsi2 hci
  · intro hj0 c hcsz hch
    rw [swap_sz] at hcsz
    rw [swap_D] at hch ⊢
    have hpj : parentIdx h.D j = i := parentIdx_of_isChild hchij
    rw [hpj]
    show lessOpt cmp (slotVal (swap h i j) c) (slotVal (swap h i j) i) = false
    have hjc := isChild_lt hch
    rw [hsv c, hsv i, if_neg (by omega), if_neg (by omega), if_neg (by omega),
      if_pos rfl]
    exact hex.1 j c hcsz hch (by omega) (by omega)

theorem sinkLoop_ord {cmp : T → T → Int} (L : LawfulCmp cmp) :
    ∀ (fuel : Nat) (h : Heap T) (i M : Nat), h.sz - i ≤ fuel → Maps h M →
      h.sz ≤ M → exceptDown cmp h i → heapOrd cmp (sinkLoop cmp fuel h i) := by
  intro fuel
  induction fuel with
  | zero =>
    intro h i M h1 mp hszM hex
    show heapOrd cmp h
    intro s c hcsz hch
    have := isChild_lt hch
    exact hex.1 s c hcsz hch (by omega)
  | succ n ih =>
    intro h i M h1 mp hszM hex
    simp only [sinkLoop]
    cases hm : minChild cmp h i with
    | none =>
      have hres := minChild_spec cmp h L i
      rw [hm] at hres
      show heapOrd cmp h
      intro s c hcsz hch
      by_cases hsi : s = i
      · rw [hsi] at hch ⊢
        obtain ⟨hch1, hch2⟩ := hch
        exact hres c hch1 (by omega)
      · exact hex.1 s c hcsz hch hsi
    | some j =>
      simp only []
      obtain ⟨hij, hjsz⟩ := minChild_some_bounds cmp h hm
      refine ih (swap h i j) j M ?_ (Maps_swap mp (by omega) (by omega)) ?_
        (exceptDown_swap_minChild L mp hszM hm (exceptAt_of_exceptDown hex))
      · rw [swap_sz]; omega
      · rw [swap_sz]; exact hszM

theorem exceptUp_of_heapOrd {cmp : T → T → Int} (L : LawfulCmp cmp)
    {h : Heap T} {M : Nat} (mp : Maps h M) (hszM : h.sz ≤ M)
    (ho : heapOrd cmp h) (i : Nat) : exceptUp cmp h i := by
  constructor
  · intro s c hcsz hch _
    exact ho s c hcsz hch
  · intro h0 c hcsz hch
    by_cases hisz : i < h.sz
    · have hD := mp.D_pos
      have hchpi : isChild h.D (parentIdx h.D i) i := isChild_parentIdx hD h0
      have hp := parentIdx_lt (D := h.D) h0
      have e1 : less cmp h c i = false := ho i c hcsz hch
      have e2 : less cmp h i (parentIdx h.D i) = false := ho _ i hisz hchpi
      obtain ⟨vc, hvc⟩ := mp.occVal (lt_of_lt_of_le hcsz hszM)
      obtain ⟨vi, hvi⟩ := mp.occVal (show i < M by omega)
      obtain ⟨vq, hvq⟩ := mp.occVal (show parentIdx h.D i < M by omega)
      show lessOpt cmp (slotVal h c) (slotVal h (parentIdx h.D i)) = false
      unfold less at e1 e2
      rw [hvc, hvi] at e1
      rw [hvi, hvq] at e2
      rw [hvc, hvq]
      exact lessOpt_nlt_trans L e1 e2
    · exact absurd hcsz (by have := isChild_lt hch; omega)

theorem swim_noop {cmp : T → T → Int} {h : Heap T} {i : Nat}
    (hno : 0 < i → less cmp h i (parentIdx h.D i) = false) :
    swim cmp h i = h := by
  show swimLoop cmp i h i = h
  cases i with
  | zero => rfl
  | succ n =>
    have := hno (Nat.succ_pos n)
    simp [swimLoop, this]

theorem sink_swim_ord {cmp : T → T → Int} (L : LawfulCmp cmp) {h : Heap T}
    {M : Nat} (mp : Maps h M) (hszM : h.sz ≤ M) {i : Nat} (hisz : i < h.sz)
    (hex : exceptAt cmp h i) :
    heapOrd cmp (swim cmp (sink cmp h i) i) := by
  cases hm : minChild cmp h i with
  | none =>
    rw [show sink cmp h i = h from sinkLoop_none cmp h i hm h.sz]
    have hres := minChild_spec cmp h L i
    rw [hm] at hres
    have hexU : exceptUp cmp h i := by
      constructor
      · intro s c hcsz hch hci
        by_cases hsi : s = i
        · rw [hsi] at hch ⊢
          obtain ⟨hch1, hch2⟩ := hch
          exact hres c hch1 (by omega)
        · exact hex.1 s c hcsz hch hsi hci
      · exact hex.2
    exact swimLoop_ord L i h i M (le_refl i) mp hszM hisz hexU
  | some j =>
    obtain ⟨hij, hjsz⟩ := minChild_some_bounds cmp h hm
    have hstep : sink cmp h i = sinkLoop cmp (h.sz - 1) (swap h i j) j := by
      show sinkLoop cmp h.sz h i = _
      have haux : ∀ n, h.sz = n + 1 →
          sinkLoop cmp h.sz h i = sinkLoop cmp n (swap h i j) j := by
        intro n hn
        rw [hn]
        simp only [sinkLoop, hm]
      exact haux (h.sz - 1) (by omega)
    rw [hstep]
    have hmswap : Maps (swap h i j) M := Maps_swap mp (by omega) (by omega)
    have hdown := exceptDown_swap_minChild L mp hszM hm hex
    have h3ord : heapOrd cmp (sinkLoop cmp (h.sz - 1) (swap h i j) j) := by
      refine sinkLoop_ord L (h.sz - 1) (swap h i j) j M ?_ hmswap ?_ hdown
      · rw [swap_sz]; omega
      · rw [swap_sz]; exact hszM
    have hmaps3 : Maps (sinkLoop cmp (h.sz - 1) (swap h i j) j) M := by
      refine sinkLoop_maps cmp (h.sz - 1) (swap h i j) j M ?_ (by omega) hmswap
      rw [swap_sz]; exact hszM
    have hsz3 : (sinkLoop cmp (h.sz - 1) (swap h i j) j).sz = h.sz := by
      rw [sinkLoop_sz, swap_sz]
    refine swimLoop_ord L i _ i M (le_refl i) hmaps3 (by rw [hsz3]; exact hszM)
      (by rw [hsz3]; exact hisz) ?_
    exact exceptUp_of_heapOrd L hmaps3 (by rw [hsz3]; exact hszM) h3ord i

/-! ## Invariant preservation by the public operations -/

theorem except_map_ok {ε α β : Type} {x : Except ε α} {f : α → β} {y : β}
    (he : x.map f = .ok y) : ∃ z, x = .ok z ∧ f z = y := by
  cases x with
  | error e => exact absurd he (by simp [Except.map])
  | ok z => exact ⟨z, rfl, by simpa [Except.map] using he⟩

theorem maps_not_full_of_inactive {h : Heap T} (mp : Maps h h.sz) {k : Nat}
    (hk : k < h.N) (hin : h.pm.getD k (-1) = -1) : h.sz < h.N := by
  by_contra hge
  have hNsz : h.sz = h.N := by have := mp.M_le; omega
  let f : Fin h.N → Fin h.N := fun s =>
    ⟨(h.im.getD s.1 (-1)).toNat, (mp.occ s.1 (by rw [hNsz]; exact s.2)).2.1⟩
  have hinj : Function.Injective f := by
    intro a b hab
    have ha := (mp.occ a.1 (by rw [hNsz]; exact a.2)).2.2
    have hb := (mp.occ b.1 (by rw [hNsz]; exact b.2)).2.2
    have hval : (h.im.getD a.1 (-1)).toNat = (h.im.getD b.1 (-1)).toNat :=
      congrArg Fin.val hab
    rw [hval, hb] at ha
    exact Fin.ext (by omega)
  have hsurj : Function.Surjective f := Finite.surjective_of_injective hinj
  obtain ⟨s, hs⟩ := hsurj ⟨k, hk⟩
  have hpmk := (mp.occ s.1 (by rw [hNsz]; exact s.2)).2.2
  have hsk : (h.im.getD s.1 (-1)).toNat = k := congrArg Fin.val hs
  rw [hsk, hin] at hpmk
  omega

theorem maps_set_value {h : Heap T} {M : Nat} (mp : Maps h M) {k : Nat}
    {x : Option T} (hkl : k < h.values.length) (hx : x ≠ none) :
    Maps { h with values := h.values.set k x } M := by
  refine ⟨mp.pm_len, mp.im_len, ?_, mp.M_le, mp.D_pos, ?_, mp.occ, mp.unocc⟩
  · show (h.values.set k x).length = h.N
    rw [List.length_set]; exact mp.val_len
  · intro k' hk' hne
    obtain ⟨ha, hb, hc, hd⟩ := mp.act k' hk' hne
    refine ⟨ha, hb, hc, ?_⟩
    show (h.values.set k x).getD k' none ≠ none
    by_cases hkk : k' = k
    · rw [hkk, getD_set_self _ _ _ _ hkl]; exact hx
    · rw [getD_set_ne _ _ _ (fun hh => hkk hh.symm)]; exact hd

theorem slotVal_set_value_ne {h : Heap T} {M : Nat} (mp : Maps h M) {k : Nat}
    (x : Option T) {s : Nat} (hs : s < M)
    (hsk : h.im.getD s (-1) ≠ (k : Int)) :
    slotVal { h with values := h.values.set k x } s = slotVal h s := by
  obtain ⟨h0, hN, hpm⟩ := mp.occ s hs
  show (if 0 ≤ h.im.getD s (-1) then
    (h.values.set k x).getD (h.im.getD s (-1)).toNat none else none) =
    slotVal h s
  rw [if_pos h0, getD_set_ne _ _ _ (by omega)]
  show _ = (if 0 ≤ h.im.getD s (-1) then
    h.values.getD (h.im.getD s (-1)).toNat none else none)
  rw [if_pos h0]

theorem slotVal_set_value_self {h : Heap T} (x : Option T) {k s : Nat}
    (hsk : h.im.getD s (-1) = (k : Int)) (hkl : k < h.values.length) :
    slotVal { h with values := h.values.set k x } s = x := by
  show (if 0 ≤ h.im.getD s (-1) then
    (h.values.set k x).getD (h.im.getD s (-1)).toNat none else none) = x
  rw [hsk, if_pos (by omega), Int.toNat_natCast, getD_set_self _ _ _ _ hkl]

theorem slotVal_of_active {h : Heap T} {M : Nat} (mp : Maps h M) {k : Nat}
    (hk : k < h.N) (hact : h.pm.getD k (-1) ≠ -1) :
    slotVal h (h.pm.getD k (-1)).toNat = h.values.getD k none := by
  obtain ⟨h0, hM, him, hv⟩ := mp.act k hk hact
  show (if 0 ≤ h.im.getD (h.pm.getD k (-1)).toNat (-1) then
    h.values.getD (h.im.getD (h.pm.getD k (-1)).toNat (-1)).toNat none
    else none) = h.values.getD k none
  rw [him, if_pos (by omega), Int.toNat_natCast]

theorem insert_inv {cmp : T → T → Int} (L : LawfulCmp cmp) {h h' : Heap T}
    {ki : Int} {v : Option T} (hI : Inv cmp h)
    (he : insert cmp h ki v = .ok h') : Inv cmp h' := by
  obtain ⟨mp, ho⟩ := hI
  unfold insert at he
  cases hct : contains h ki with
  | error e => rw [hct] at he; exact absurd he (by simp)
  | ok b =>
    cases b with
    | true => rw [hct] at he; exact absurd he (by simp)
    | false =>
      rw [hct] at he
      cases v with
      | none => exact absurd he (by simp)
      | some x =>
        set h1 : Heap T :=
          { h with
            pm := h.pm.set ki.toNat ((h.sz : Nat) : Int)
            im := h.im.set h.sz ki
            values := h.values.set ki.toNat (some x)
            sz := h.sz + 1 } with h1_def
        replace he : (Except.ok (swim cmp h1 h.sz) : Except HeapErr (Heap T)) =
          Except.ok h' := he
        have hh' : h' = swim cmp h1 h.sz := (Except.ok.inj he).symm
        subst hh'
        obtain ⟨hb, hin⟩ := contains_ok_false.mp hct
        have hk0 : 0 ≤ ki := by omega
        have hkN : ki.toNat < h.N := by omega
        have hszN : h.sz < h.N := maps_not_full_of_inactive mp hkN hin
        have hpm1 : ∀ k', h1.pm.getD k' (-1) =
            if k' = ki.toNat then ((h.sz : Nat) : Int)
            else h.pm.getD k' (-1) := by
          intro k'
          show (h.pm.set ki.toNat _).getD k' (-1) = _
          by_cases hkk : k' = ki.toNat
          · rw [if_pos hkk, hkk,
              getD_set_self _ _ _ _ (by rw [mp.pm_len]; exact hkN)]
          · rw [if_neg hkk, getD_set_ne _ _ _ (fun hh => hkk hh.symm)]
        have him1 : ∀ s, h1.im.getD s (-1) =
            if s = h.sz then ki else h.im.getD s (-1) := by
          intro s
          show (h.im.set h.sz ki).getD s (-1) = _
          by_cases hss : s = h.sz
          · rw [if_pos hss, hss,
              getD_set_self _ _ _ _ (by rw [mp.im_len]; exact hszN)]
          · rw [if_neg hss, getD_set_ne _ _ _ (fun hh => hss hh.symm)]
        have hval1 : ∀ k', h1.values.getD k' none =
            if k' = ki.toNat then some x else h.values.getD k' none := by
          intro k'
          show (h.values.set ki.toNat _).getD k' none = _
          by_cases hkk : k' = ki.toNat
          · rw [if_pos hkk, hkk,
              getD_set_self _ _ _ _ (by rw [mp.val_len]; exact hkN)]
          · rw [if_neg hkk, getD_set_ne _ _ _ (fun hh => hkk hh.symm)]
        have hsz1 : h1.sz = h.sz + 1 := rfl
        have hN1 : h1.N = h.N := rfl
        have hD1 : h1.D = h.D := rfl
        have mp1 : Maps h1 (h.sz + 1) := by
          refine ⟨?_, ?_, ?_, by omega, mp.D_pos, ?_, ?_, ?_⟩
          · show (h.pm.set ki.toNat _).length = h.N
            rw [List.length_set]; exact mp.pm_len
          · show (h.im.set h.sz ki).length = h.N
            rw [List.length_set]; exact mp.im_len
          · show (h.values.set ki.toNat _).length = h.N
            rw [List.length_set]; exact mp.val_len
          · intro k' hk' hne
            rw [hN1] at hk'
            rw [hpm1] at hne ⊢
            rw [him1, hval1]
            by_cases hkk : k' = ki.toNat
            · rw [if_pos hkk] at hne ⊢
              rw [Int.toNat_natCast]
              refine ⟨by omega, by omega, ?_, by simp [hkk]⟩
              rw [if_pos rfl]
              omega
            · rw [if_neg hkk] at hne ⊢
              obtain ⟨ha0, haM, haim, hav⟩ := mp.act k' hk' hne
              rw [if_neg (by omega), if_neg hkk]
              exact ⟨ha0, by omega, haim, hav⟩
          · intro s hs
            rw [him1, hpm1]
            by_cases hss : s = h.sz
            · rw [if_pos hss]
              refine ⟨by omega, by omega, ?_⟩
              rw [if_pos (by omega)]
              omega
            · rw [if_neg hss]
              have hsM : s < h.sz := by omega
              obtain ⟨ho0, hoN, hopm⟩ := mp.occ s hsM
              refine ⟨ho0, hoN, ?_⟩
              rw [if_neg ?_]
              · exact hopm
              · intro hh
                rw [hh] at hopm
                rw [hin] at hopm
                omega
          · intro s hMs hsN
            rw [hN1] at hsN
            rw [him1, if_neg (by omega)]
            exact mp.unocc s (by omega) hsN
        have hsv1 : ∀ s, s < h.sz → slotVal h1 s = slotVal h s := by
          intro s hs
          obtain ⟨ho0, hoN, hopm⟩ := mp.occ s hs
          show (if 0 ≤ h1.im.getD s (-1) then
            h1.values.getD (h1.im.getD s (-1)).toNat none else none) =
            slotVal h s
          rw [him1, if_neg (show ¬ s = h.sz by omega)]
          show (if 0 ≤ h.im.getD s (-1) then
            h1.values.getD (h.im.getD s (-1)).toNat none else none) = _
          rw [if_pos ho0, hval1, if_neg ?_]
          · show _ = (if 0 ≤ h.im.getD s (-1) then
              h.values.getD (h.im.getD s (-1)).toNat none else none)
            rw [if_pos ho0]
          · intro hh
            rw [hh] at hopm
            rw [hin] at hopm
            omega
        have hexU : exceptUp cmp h1 h.sz := by
          constructor
          · intro s c hcsz hch hci
            rw [hsz1] at hcsz
            rw [hD1] at hch
            have hcs : c < h.sz := by omega
            have hss : s < h.sz := by have := isChild_lt hch; omega
            show lessOpt cmp (slotVal h1 c) (slotVal h1 s) = false
            rw [hsv1 c hcs, hsv1 s hss]
            exact ho s c hcs hch
          · intro h0 c hcsz hch
            rw [hsz1] at hcsz
            rw [hD1] at hch
            have := isChild_lt hch
            exact absurd hcsz (by omega)
        constructor
        · have hsw : (swim cmp h1 h.sz).sz = h.sz + 1 := by
            show (swimLoop cmp h.sz h1 h.sz).sz = _
            rw [swimLoop_sz]
          show Maps (swim cmp h1 h.sz) (swim cmp h1 h.sz).sz
          rw [hsw]
          exact swimLoop_maps cmp h.sz h1 h.sz (h.sz + 1) (by omega) mp1
        · exact swimLoop_ord L h.sz h1 h.sz (h.sz + 1) (le_refl _) mp1
            (by rw [hsz1]) (by rw [hsz1]; omega) hexU

theorem setval_facts {h : Heap T} (mp : Maps h h.sz) {ki : Int}
    (hkN : ki.toNat < h.N) (hact : h.pm.getD ki.toNat (-1) ≠ -1) (x : T) :
    Maps { h with values := h.values.set ki.toNat (some x) } h.sz ∧
    slotVal { h with values := h.values.set ki.toNat (some x) }
      (h.pm.getD ki.toNat (-1)).toNat = some x ∧
    (∀ s, s < h.sz → s ≠ (h.pm.getD ki.toNat (-1)).toNat →
      slotVal { h with values := h.values.set ki.toNat (some x) } s =
        slotVal h s) := by
  obtain ⟨ha0, haM, haim, hav⟩ := mp.act ki.toNat hkN hact
  have hkl : ki.toNat < h.values.length := by rw [mp.val_len]; exact hkN
  refine ⟨maps_set_value mp hkl (by simp),
    slotVal_set_value_self (some x) haim hkl, ?_⟩
  intro s hs hsi
  refine slotVal_set_value_ne mp (some x) hs ?_
  intro hh
  obtain ⟨o0, oN, opm⟩ := mp.occ s hs
  rw [hh, Int.toNat_natCast] at opm
  exact hsi (by omega)

theorem exceptAt_set_value {cmp : T → T → Int} (L : LawfulCmp cmp)
    {h : Heap T} (mp : Maps h h.sz) (ho : heapOrd cmp h) {ki : Int}
    (hkN : ki.toNat < h.N) (hact : h.pm.getD ki.toNat (-1) ≠ -1) (x : T) :
    exceptAt cmp { h with values := h.values.set ki.toNat (some x) }
      (h.pm.getD ki.toNat (-1)).toNat := by
  obtain ⟨ha0, haM, haim, hav⟩ := mp.act ki.toNat hkN hact
  obtain ⟨mp1, hsvi, hsvo⟩ := setval_facts mp hkN hact x
  set i := (h.pm.getD ki.toNat (-1)).toNat with hi_def
  set h1 : Heap T := { h with values := h.values.set ki.toNat (some x) }
    with h1_def
  have hsz1 : h1.sz = h.sz := rfl
  have hD1 : h1.D = h.D := rfl
  constructor
  · intro s c hcsz hch hsi hci
    rw [hsz1] at hcsz
    rw [hD1] at hch
    show lessOpt cmp (slotVal h1 c) (slotVal h1 s) = false
    rw [hsvo c hcsz hci, hsvo s (by have := isChild_lt hch; omega) hsi]
    exact ho s c hcsz hch
  · intro h0i c hcsz hch
    rw [hsz1] at hcsz
    rw [hD1] at hch
    show lessOpt cmp (slotVal h1 c) (slotVal h1 (parentIdx h1.D i)) = false
    rw [show h1.D = h.D from rfl]
    have hp := parentIdx_lt (D := h.D) h0i
    have hchpi : isChild h.D (parentIdx h.D i) i := isChild_parentIdx mp.D_pos h0i
    have hci : c ≠ i := by have := isChild_lt hch; omega
    rw [hsvo c hcsz hci, hsvo (parentIdx h.D i) (by omega) (by omega)]
    have e1 := ho i c hcsz hch
    have e2 := ho (parentIdx h.D i) i haM hchpi
    obtain ⟨vc, hvc⟩ := mp.occVal hcsz
    obtain ⟨vi, hvi⟩ := mp.occVal haM
    obtain ⟨vq, hvq⟩ := mp.occVal (show parentIdx h.D i < h.sz by omega)
    unfold less at e1 e2
    rw [hvc, hvi] at e1
    rw [hvi, hvq] at e2
    rw [hvc, hvq]
    exact lessOpt_nlt_trans L e1 e2

theorem decrease_inv {cmp : T → T → Int} (L : LawfulCmp cmp) {h h' : Heap T}
    {ki : Int} {v : Option T} (hI : Inv cmp h)
    (he : decrease cmp h ki v = .ok h') : Inv cmp h' := by
  obtain ⟨mp, ho⟩ := hI
  unfold decrease at he
  cases hct : contains h ki with
  | error e => rw [hct] at he; exact absurd he (by simp)
  | ok b =>
    cases b with
    | false => rw [hct] at he; exact absurd he (by simp)
    | true =>
      rw [hct] at he
      cases v with
      | none => exact absurd he (by simp)
      | some x =>
        obtain ⟨hb, hact⟩ := contains_ok_true.mp hct
        have hk0 : 0 ≤ ki := by omega
        have hkN : ki.toNat < h.N := by omega
        obtain ⟨ha0, haM, haim, hav⟩ := mp.act ki.toNat hkN hact
        by_cases himp :
            lessValue cmp (some x) (h.values.getD ki.toNat none) = true
        · rw [if_pos himp] at he
          set i := (h.pm.getD ki.toNat (-1)).toNat with hi_def
          set h1 : Heap T :=
            { h with values := h.values.set ki.toNat (some x) } with h1_def
          replace he : (Except.ok (swim cmp h1 i) : Except HeapErr (Heap T)) =
            Except.ok h' := he
          have hh' : h' = swim cmp h1 i := (Except.ok.inj he).symm
          subst hh'
          obtain ⟨mp1, hsvi, hsvo⟩ := setval_facts mp hkN hact x
          have hexA := exceptAt_set_value L mp ho hkN hact x
          have hsz1 : h1.sz = h.sz := rfl
          have hD1 : h1.D = h.D := rfl
          have hcur : h.values.getD ki.toNat none = slotVal h i :=
            (slotVal_of_active mp hkN hact).symm
          rw [hcur] at himp
          unfold lessValue at himp
          have hexU : exceptUp cmp h1 i := by
            constructor
            · intro s c hcsz hch hci
              rw [hsz1] at hcsz
              rw [hD1] at hch
              by_cases hsi : s = i
              · rw [hsi] at hch ⊢
                show lessOpt cmp (slotVal h1 c) (slotVal h1 i) = false
                rw [hsvi, hsvo c hcsz hci]
                exact lessOpt_false_left L himp (ho i c hcsz hch)
              · exact hexA.1 s c (by rw [hsz1]; exact hcsz)
                  (by rw [hD1]; exact hch) hsi hci
            · exact hexA.2
          constructor
          · show Maps (swim cmp h1 i) (swim cmp h1 i).sz
            have hsw : (swim cmp h1 i).sz = h.sz := by
              show (swimLoop cmp i h1 i).sz = h.sz
              rw [swimLoop_sz]
            rw [hsw]
            exact swimLoop_maps cmp i h1 i h.sz haM mp1
          · exact swimLoop_ord L i h1 i h.sz (le_refl i) mp1
              (le_of_eq hsz1) (by rw [hsz1]; exact haM) hexU
        · rw [if_neg himp] at he
          have hh' : h' = h := (Except.ok.inj he).symm
          subst hh'
          exact ⟨mp, ho⟩

theorem increase_inv {cmp : T → T → Int} (L : LawfulCmp cmp) {h h' : Heap T}
    {ki : Int} {v : Option T} (hI : Inv cmp h)
    (he : increase cmp h ki v = .ok h') : Inv cmp h' := by
  obtain ⟨mp, ho⟩ := hI
  unfold increase at he
  cases hct : contains h ki with
  | error e => rw [hct] at he; exact absurd he (by simp)
  | ok b =>
    cases b with
    | false => rw [hct] at he; exact absurd he (by simp)
    | true =>
      rw [hct] at he
      cases v with
      | none => exact absurd he (by simp)
      | some x =>
        obtain ⟨hb, hact⟩ := contains_ok_true.mp hct
        have hk0 : 0 ≤ ki := by omega
        have hkN : ki.toNat < h.N := by omega
        obtain ⟨ha0, haM, haim, hav⟩ := mp.act ki.toNat hkN hact
        by_cases himp :
            lessValue cmp (h.values.getD ki.toNat none) (some x) = true
        · rw [if_pos himp] at he
          set i := (h.pm.getD ki.toNat (-1)).toNat with hi_def
          set h1 : Heap T :=
            { h with values := h.values.set ki.toNat (some x) } with h1_def
          replace he : (Except.ok (sink cmp h1 i) : Except HeapErr (Heap T)) =
            Except.ok h' := he
          have hh' : h' = sink cmp h1 i := (Except.ok.inj he).symm
          subst hh'
          obtain ⟨mp1, hsvi, hsvo⟩ := setval_facts mp hkN hact x
          have hexA := exceptAt_set_value L mp ho hkN hact x
          have hsz1 : h1.sz = h.sz := rfl
          have hD1 : h1.D = h.D := rfl
          have hcur : h.values.getD ki.toNat none = slotVal h i :=
            (slotVal_of_active mp hkN hact).symm
          rw [hcur] at himp
          unfold lessValue at himp
          have hexD : exceptDown cmp h1 i := by
            constructor
            · intro s c hcsz hch hsi
              rw [hsz1] at hcsz
              rw [hD1] at hch
              by_cases hci : c = i
              · rw [hci] at hch ⊢
                have h0i : 0 < i := isChild_pos hch
                have hsq : s = parentIdx h.D i :=
                  (parentIdx_of_isChild hch).symm
                rw [hsq]
                have hp := parentIdx_lt (D := h.D) h0i
                have hchpi : isChild h.D (parentIdx h.D i) i :=
                  isChild_parentIdx mp.D_pos h0i
                show lessOpt cmp (slotVal h1 i)
                  (slotVal h1 (parentIdx h.D i)) = false
                rw [hsvi, hsvo (parentIdx h.D i) (by omega) (by omega)]
                have e2 := ho (parentIdx h.D i) i haM hchpi
                obtain ⟨vi, hvi⟩ := mp.occVal haM
                obtain ⟨vq, hvq⟩ := mp.occVal
                  (show parentIdx h.D i < h.sz by omega)
                unfold less at e2
                rw [hvi, hvq] at e2
                rw [hvq]
                rw [hvi] at himp
                rw [lessOpt_some_false] at e2 ⊢
                rw [lessOpt_some] at himp
                exact L.nlt_of_le (L.le_trans (L.le_of_nlt e2) (by omega))
              · exact hexA.1 s c (by rw [hsz1]; exact hcsz)
                  (by rw [hD1]; exact hch) hsi hci
            · exact hexA.2
          constructor
          · show Maps (sink cmp h1 i) (sink cmp h1 i).sz
            have hsk : (sink cmp h1 i).sz = h.sz := by
              show (sinkLoop cmp h1.sz h1 i).sz = h.sz
              rw [sinkLoop_sz]
            rw [hsk]
            exact sinkLoop_maps cmp h1.sz h1 i h.sz (le_of_eq hsz1) haM mp1
          · exact sinkLoop_ord L h1.sz h1 i h.sz (by rw [hsz1]; omega) mp1
              (le_of_eq hsz1) hexD
        · rw [if_neg himp] at he
          have hh' : h' = h := (Except.ok.inj he).symm
          subst hh'
          exact ⟨mp, ho⟩

theorem update_inv {cmp : T → T → Int} (L : LawfulCmp cmp) {h h' : Heap T}
    {ki : Int} {v w : Option T} (hI : Inv cmp h)
    (he : update cmp h ki v = .ok (w, h')) : Inv cmp h' := by
  obtain ⟨mp, ho⟩ := hI
  unfold update at he
  cases hct : contains h ki with
  | error e => rw [hct] at he; exact absurd he (by simp)
  | ok b =>
    cases b with
    | false => rw [hct] at he; exact absurd he (by simp)
    | true =>
      rw [hct] at he
      cases v with
      | none => exact absurd he (by simp)
      | some x =>
        obtain ⟨hb, hact⟩ := contains_ok_true.mp hct
        have hk0 : 0 ≤ ki := by omega
        have hkN : ki.toNat < h.N := by omega
        obtain ⟨ha0, haM, haim, hav⟩ := mp.act ki.toNat hkN hact
        set i := (h.pm.getD ki.toNat (-1)).toNat with hi_def
        set h1 : Heap T :=
          { h with values := h.values.set ki.toNat (some x) } with h1_def
        replace he : (Except.ok (h.values.getD ki.toNat none,
          swim cmp (sink cmp h1 i) i) :
          Except HeapErr (Option T × Heap T)) = Except.ok (w, h') := he
        have hh' : h' = swim cmp (sink cmp h1 i) i :=
          (congrArg Prod.snd (Except.ok.inj he)).symm
        subst hh'
        obtain ⟨mp1, hsvi, hsvo⟩ := setval_facts mp hkN hact x
        have hexA := exceptAt_set_value L mp ho hkN hact x
        have hsz1 : h1.sz = h.sz := rfl
        constructor
        · show Maps (swim cmp (sink cmp h1 i) i) (swim cmp (sink cmp h1 i) i).sz
          have hsk : (sink cmp h1 i).sz = h.sz := by
            show (sinkLoop cmp h1.sz h1 i).sz = h.sz
            rw [sinkLoop_sz]
          have hsw : (swim cmp (sink cmp h1 i) i).sz = h.sz := by
            show (swimLoop cmp i (sink cmp h1 i) i).sz = h.sz
            rw [swimLoop_sz]
            exact hsk
          rw [hsw]
          refine swimLoop_maps cmp i (sink cmp h1 i) i h.sz haM ?_
          exact sinkLoop_maps cmp h1.sz h1 i h.sz (le_of_eq hsz1) haM mp1
        · exact sink_swim_ord L mp1 (le_of_eq hsz1)
            (show i < h1.sz by rw [hsz1]; exact haM) hexA

theorem delete_cleanup {cmp : T → T → Int} {h4 : Heap T} {m k : Nat}
    (mp4 : Maps h4 (m + 1)) (hord4 : heapOrd cmp h4) (hsz4 : h4.sz = m)
    (hkN : k < h4.N) (him4 : h4.im.getD m (-1) = (k : Int))
    (hpm4 : h4.pm.getD k (-1) = (m : Int)) :
    Inv cmp { h4 with
      values := h4.values.set k none
      pm := h4.pm.set k (-1)
      im := h4.im.set m (-1) } := by
  have hmN : m < h4.N := lt_of_lt_of_le (Nat.lt_succ_self m) mp4.M_le
  have hkL : k < h4.pm.length := by rw [mp4.pm_len]; exact hkN
  have hkVL : k < h4.values.length := by rw [mp4.val_len]; exact hkN
  have hmL : m < h4.im.length := by rw [mp4.im_len]; exact hmN
  have hpm5 : ∀ k', (h4.pm.set k (-1)).getD k' (-1) =
      if k' = k then -1 else h4.pm.getD k' (-1) := by
    intro k'
    by_cases hkk : k' = k
    · rw [if_pos hkk, hkk, getD_set_self _ _ _ _ hkL]
    · rw [if_neg hkk, getD_set_ne _ _ _ (fun hh => hkk hh.symm)]
  have him5 : ∀ s, (h4.im.set m (-1)).getD s (-1) =
      if s = m then -1 else h4.im.getD s (-1) := by
    intro s
    by_cases hsm : s = m
    · rw [if_pos hsm, hsm, getD_set_self _ _ _ _ hmL]
    · rw [if_neg hsm, getD_set_ne _ _ _ (fun hh => hsm hh.symm)]
  have hval5 : ∀ k', (h4.values.set k none).getD k' none =
      if k' = k then none else h4.values.getD k' none := by
    intro k'
    by_cases hkk : k' = k
    · rw [if_pos hkk, hkk, getD_set_self _ _ _ _ hkVL]
    · rw [if_neg hkk, getD_set_ne _ _ _ (fun hh => hkk hh.symm)]
  have hkey_ne : ∀ s, s < m → h4.im.getD s (-1) ≠ (k : Int) := by
    intro s hs heq
    obtain ⟨o0, oN, opm⟩ := mp4.occ s (by omega)
    rw [heq, Int.toNat_natCast, hpm4] at opm
    omega
  have hsv5 : ∀ t, t < m →
      slotVal { h4 with
        values := h4.values.set k none
        pm := h4.pm.set k (-1)
        im := h4.im.set m (-1) } t = slotVal h4 t := by
    intro t ht
    obtain ⟨o0, oN, opm⟩ := mp4.occ t (by omega)
    have hne := hkey_ne t ht
    show (if 0 ≤ (h4.im.set m (-1)).getD t (-1) then
      (h4.values.set k none).getD ((h4.im.set m (-1)).getD t (-1)).toNat none
      else none) = slotVal h4 t
    rw [him5 t, if_neg (show ¬ t = m by omega), if_pos o0, hval5,
      if_neg (by omega)]
    show _ = (if 0 ≤ h4.im.getD t (-1) then
      h4.values.getD (h4.im.getD t (-1)).toNat none else none)
    rw [if_pos o0]
  constructor
  · show Maps _ ({ h4 with
      values := h4.values.set k none
      pm := h4.pm.set k (-1)
      im := h4.im.set m (-1) }).sz
    have hsz5 : ({ h4 with
      values := h4.values.set k none
      pm := h4.pm.set k (-1)
      im := h4.im.set m (-1) }).sz = m := hsz4
    rw [hsz5]
    refine ⟨?_, ?_, ?_, (show m ≤ h4.N by have := mp4.M_le; omega),
      mp4.D_pos, ?_, ?_, ?_⟩
    · show (h4.pm.set k (-1)).length = h4.N
      rw [List.length_set]; exact mp4.pm_len
    · show (h4.im.set m (-1)).length = h4.N
      rw [List.length_set]; exact mp4.im_len
    · show (h4.values.set k none).length = h4.N
      rw [List.length_set]; exact mp4.val_len
    · intro k' hk' hne
      show 0 ≤ (h4.pm.set k (-1)).getD k' (-1) ∧ _
      rw [hpm5] at hne ⊢
      by_cases hkk : k' = k
      · rw [if_pos hkk] at hne
        exact absurd rfl hne
      · rw [if_neg hkk] at hne ⊢
        obtain ⟨a0, aM, aim, av⟩ := mp4.act k' hk' hne
        have hsm : (h4.pm.getD k' (-1)).toNat ≠ m := by
          intro hh
          rw [hh, him4] at aim
          exact hkk (by omega)
        rw [him5, if_neg hsm, hval5, if_neg hkk]
        exact ⟨a0, by omega, aim, av⟩
    · intro s hs
      show 0 ≤ (h4.im.set m (-1)).getD s (-1) ∧ _
      rw [him5, if_neg (show ¬ s = m by omega)]
      obtain ⟨o0, oN, opm⟩ := mp4.occ s (by omega)
      have hne := hkey_ne s hs
      refine ⟨o0, oN, ?_⟩
      rw [hpm5, if_neg (by omega)]
      exact opm
    · intro s hMs hsN
      show (h4.im.set m (-1)).getD s (-1) = -1
      rw [him5]
      by_cases hsm : s = m
      · rw [if_pos hsm]
      · rw [if_neg hsm]
        exact mp4.unocc s (by omega) hsN
  · show heapOrd cmp _
    intro s c hcsz hch
    have hcsz' : c < m := hcsz.trans_le (le_of_eq hsz4)
    have hsc := isChild_lt hch
    show lessOpt cmp _ _ = false
    rw [hsv5 c hcsz', hsv5 s (by omega)]
    exact hord4 s c (by omega) hch

theorem delete_inv {cmp : T → T → Int} (L : LawfulCmp cmp) {h h' : Heap T}
    {ki : Int} {w : Option T} (hI : Inv cmp h)
    (he : delete cmp h ki = .ok (w, h')) : Inv cmp h' := by
  obtain ⟨mp, ho⟩ := hI
  unfold delete at he
  cases hct : contains h ki with
  | error e => rw [hct] at he; exact absurd he (by simp)
  | ok b =>
    cases b with
    | false => rw [hct] at he; exact absurd he (by simp)
    | true =>
      rw [hct] at he
      obtain ⟨hb, hact⟩ := contains_ok_true.mp hct
      have hk0 : 0 ≤ ki := by omega
      have hkN : ki.toNat < h.N := by omega
      obtain ⟨ha0, haM, haim, hav⟩ := mp.act ki.toNat hkN hact
      set i := (h.pm.getD ki.toNat (-1)).toNat with hi_def
      set m := h.sz - 1 with hm_def
      set hm2 : Heap T := { h with sz := m } with hm2_def
      set h2 : Heap T := swap hm2 i m with h2_def
      set h4 : Heap T := swim cmp (sink cmp h2 i) i with h4_def
      replace he : (Except.ok (h4.values.getD ki.toNat none,
        { h4 with
          values := h4.values.set ki.toNat none
          pm := h4.pm.set ki.toNat (-1)
          im := h4.im.set m (-1) }) :
        Except HeapErr (Option T × Heap T)) = Except.ok (w, h') := he
      have hh' : h' = { h4 with
          values := h4.values.set ki.toNat none
          pm := h4.pm.set ki.toNat (-1)
          im := h4.im.set m (-1) } :=
        (congrArg Prod.snd (Except.ok.inj he)).symm
      subst hh'
      have hm1 : m + 1 = h.sz := by omega
      have mp_m2 : Maps hm2 h.sz := ⟨mp.pm_len, mp.im_len, mp.val_len,
        mp.M_le, mp.D_pos, mp.act, mp.occ, mp.unocc⟩
      have hiM : i < h.sz := haM
      have hmM : m < h.sz := by omega
      have e_im : hm2.im = h.im := rfl
      have e_pm : hm2.pm = h.pm := rfl
      have hiL : i < hm2.im.length := by
        show i < h.im.length
        rw [mp.im_len]
        have := mp.M_le; omega
      have hmL : m < hm2.im.length := by
        show m < h.im.length
        rw [mp.im_len]
        have := mp.M_le; omega
      have mp2 : Maps h2 h.sz := Maps_swap mp_m2 hiM hmM
      have hsz2 : h2.sz = m := rfl
      have hD2 : h2.D = h.D := rfl
      have him2m : h2.im.getD m (-1) = ((ki.toNat : Nat) : Int) := by
        show (swap hm2 i m).im.getD m (-1) = _
        rw [swap_im_getD hm2 m hiL hmL, if_pos rfl]
        exact haim
      have hpm2k : h2.pm.getD ki.toNat (-1) = ((m : Nat) : Int) := by
        show (swap hm2 i m).pm.getD ki.toNat (-1) = _
        rw [swap_pm_getD mp_m2 hiM hmM]
        rw [if_pos ?_]
        exact haim.symm
      by_cases him : i = m
      · -- the deleted key occupies the last slot: both sift passes are no-ops
        have f_im : ∀ s, h2.im.getD s (-1) = h.im.getD s (-1) := by
          intro s
          show (swap hm2 i m).im.getD s (-1) = _
          rw [swap_im_getD hm2 s hiL hmL]
          simp only [e_im]
          by_cases hsm : s = m
          · rw [if_pos hsm, him, hsm]
          · rw [if_neg hsm, if_neg (show ¬ s = i by omega)]
        have f_pm : ∀ k', h2.pm.getD k' (-1) = h.pm.getD k' (-1) := by
          intro k'
          show (swap hm2 i m).pm.getD k' (-1) = _
          rw [swap_pm_getD mp_m2 hiM hmM]
          simp only [e_im, e_pm]
          by_cases hki' : (k' : Int) = h.im.getD i (-1)
          · rw [if_pos hki']
            have hk'e : k' = ki.toNat := by
              rw [haim] at hki'; omega
            rw [hk'e]
            omega
          · rw [if_neg hki', if_neg ?_]
            · intro hh
              rw [← him] at hh
              exact hki' hh
        have hsv2 : ∀ t, slotVal h2 t = slotVal h t := by
          intro t
          show (if 0 ≤ h2.im.getD t (-1) then
            h2.values.getD (h2.im.getD t (-1)).toNat none else none) =
            slotVal h t
          rw [f_im t]
          show (if 0 ≤ h.im.getD t (-1) then
            h.values.getD (h.im.getD t (-1)).toNat none else none) = _
          rfl
        have hsink : sink cmp h2 i = h2 :=
          sinkLoop_none cmp h2 i
            (minChild_none_of_le cmp h2 i (by rw [hsz2]; omega)) h2.sz
        have h4eq : h4 = h2 := by
          show swim cmp (sink cmp h2 i) i = h2
          rw [hsink]
          refine swim_noop ?_
          intro h0i
          show lessOpt cmp (slotVal h2 i)
            (slotVal h2 (parentIdx h2.D i)) = false
          rw [hsv2 i, hD2, hsv2 (parentIdx h.D i)]
          exact ho (parentIdx h.D i) i haM (isChild_parentIdx mp.D_pos h0i)
        have mp4 : Maps h4 (m + 1) := by
          rw [h4eq, hm1]
          exact mp2
        have hord4 : heapOrd cmp h4 := by
          rw [h4eq]
          intro s c hcsz hch
          rw [hsz2] at hcsz
          rw [hD2] at hch
          show lessOpt cmp (slotVal h2 c) (slotVal h2 s) = false
          rw [hsv2 c, hsv2 s]
          exact ho s c (by omega) hch
        have hsz4 : h4.sz = m := by rw [h4eq]; exact hsz2
        have him4 : h4.im.getD m (-1) = ((ki.toNat : Nat) : Int) := by
          rw [h4eq]
          exact him2m
        have hpm4 : h4.pm.getD ki.toNat (-1) = ((m : Nat) : Int) := by
          rw [h4eq]
          exact hpm2k
        have hN4 : h4.N = h.N := by rw [h4eq]; rfl
        exact delete_cleanup mp4 hord4 hsz4 (by rw [hN4]; exact hkN) him4 hpm4
      · -- general position: sink then swim restore order below the new size
        have him' : i < m := by omega
        have hsv2 : ∀ s, slotVal h2 s =
            if s = m then slotVal h i
            else if s = i then slotVal h m
            else slotVal h s := by
          intro s
          show slotVal (swap hm2 i m) s = _
          rw [slotVal_swap hm2 i m s hiL hmL]
          rfl
        have hexA : exceptAt cmp h2 i := by
          constructor
          · intro s c hcsz hch hsi hci
            rw [hsz2] at hcsz
            rw [hD2] at hch
            have hsc := isChild_lt hch
            show lessOpt cmp (slotVal h2 c) (slotVal h2 s) = false
            rw [hsv2 c, hsv2 s, if_neg (by omega), if_neg hci,
              if_neg (by omega), if_neg hsi]
            exact ho s c (by omega) hch
          · intro h0i c hcsz hch
            rw [hsz2] at hcsz
            rw [hD2] at hch ⊢
            show lessOpt cmp (slotVal h2 c)
              (slotVal h2 (parentIdx h.D i)) = false
            have hp := parentIdx_lt (D := h.D) h0i
            have hchpi : isChild h.D (parentIdx h.D i) i :=
              isChild_parentIdx mp.D_pos h0i
            have hci : c ≠ i := by have := isChild_lt hch; omega
            rw [hsv2 c, hsv2 (parentIdx h.D i), if_neg (by omega), if_neg hci,
              if_neg (by omega), if_neg (by omega)]
            have e1 := ho i c (by omega) hch
            have e2 := ho (parentIdx h.D i) i haM hchpi
            obtain ⟨vc, hvc⟩ := mp.occVal (show c < h.sz by omega)
            obtain ⟨vi, hvi⟩ := mp.occVal haM
            obtain ⟨vq, hvq⟩ := mp.occVal
              (show parentIdx h.D i < h.sz by omega)
            unfold less at e1 e2
            rw [hvc, hvi] at e1
            rw [hvi, hvq] at e2
            rw [hvc, hvq]
            exact lessOpt_nlt_trans L e1 e2
        have hord4 : heapOrd cmp h4 := by
          show heapOrd cmp (swim cmp (sink cmp h2 i) i)
          exact sink_swim_ord L mp2 (by rw [hsz2]; omega)
            (show i < h2.sz by rw [hsz2]; omega) hexA
        have mp3 : Maps (sink cmp h2 i) h.sz :=
          sinkLoop_maps cmp h2.sz h2 i h.sz (by rw [hsz2]; omega) haM mp2
        have mp4 : Maps h4 h.sz := by
          show Maps (swim cmp (sink cmp h2 i) i) h.sz
          exact swimLoop_maps cmp i (sink cmp h2 i) i h.sz haM mp3
        have hsz3 : (sink cmp h2 i).sz = m := by
          show (sinkLoop cmp h2.sz h2 i).sz = m
          rw [sinkLoop_sz]
          exact hsz2
        have hsz4 : h4.sz = m := by
          show (swimLoop cmp i (sink cmp h2 i) i).sz = m
          rw [swimLoop_sz]
          exact hsz3
        have hkeep3 := sinkLoop_keep cmp h2.sz h2 i h.sz m mp2
          (by rw [hsz2]; omega) him' hmM (le_of_eq hsz2)
        have hkeep4 := swimLoop_keep cmp i (sink cmp h2 i) i h.sz m mp3
          haM hmM him'
        have him4 : h4.im.getD m (-1) = ((ki.toNat : Nat) : Int) := by
          show (swimLoop cmp i (sink cmp h2 i) i).im.getD m (-1) = _
          rw [hkeep4.1]
          show (sinkLoop cmp h2.sz h2 i).im.getD m (-1) = _
          rw [hkeep3.1]
          exact him2m
        have hpm4 : h4.pm.getD ki.toNat (-1) = ((m : Nat) : Int) := by
          have h3im : (sink cmp h2 i).im.getD m (-1) = ((ki.toNat : Nat) : Int) := by
            show (sinkLoop cmp h2.sz h2 i).im.getD m (-1) = _
            rw [hkeep3.1]
            exact him2m
          have hk4 := hkeep4.2
          rw [h3im, Int.toNat_natCast] at hk4
          have hk3 := hkeep3.2
          rw [him2m, Int.toNat_natCast] at hk3
          show (swimLoop cmp i (sink cmp h2 i) i).pm.getD ki.toNat (-1) = _
          rw [hk4]
          show (sinkLoop cmp h2.sz h2 i).pm.getD ki.toNat (-1) = _
          rw [hk3]
          exact hpm2k
        have hN4 : h4.N = h.N := by
          show (swimLoop cmp i (sink cmp h2 i) i).N = h.N
          rw [swimLoop_N]
          show (sinkLoop cmp h2.sz h2 i).N = h.N
          rw [sinkLoop_N]
          rfl
        exact delete_cleanup (by rw [hm1]; exact mp4) hord4 hsz4
          (by rw [hN4]; exact hkN) him4 hpm4

theorem pollMinKeyIndex_inv {cmp : T → T → Int} (L : LawfulCmp cmp)
    {h h' : Heap T} {k : Int} (hI : Inv cmp h)
    (he : pollMinKeyIndex cmp h = .ok (k, h')) : Inv cmp h' := by
  unfold pollMinKeyIndex at he
  cases hpk : peekMinKeyIndex h with
  | error e => rw [hpk] at he; exact absurd he (by simp)
  | ok mk0 =>
    rw [hpk] at he
    replace he : (match delete cmp h mk0 with
        | Except.error e => (Except.error e : Except HeapErr (Int × Heap T))
        | Except.ok (fst, h2) => Except.ok (mk0, h2)) = Except.ok (k, h') := he
    cases hd : delete cmp h mk0 with
    | error e => rw [hd] at he; exact absurd he (by simp)
    | ok r =>
      rw [hd] at he
      obtain ⟨w, h2⟩ := r
      replace he : (Except.ok (mk0, h2) : Except HeapErr (Int × Heap T)) =
        .ok (k, h') := he
      have hh : h2 = h' := congrArg Prod.snd (Except.ok.inj he)
      rw [← hh]
      exact delete_inv L hI hd

theorem pollMinValue_inv {cmp : T → T → Int} (L : LawfulCmp cmp)
    {h h' : Heap T} {w : Option T} (hI : Inv cmp h)
    (he : pollMinValue cmp h = .ok (w, h')) : Inv cmp h' := by
  unfold pollMinValue at he
  cases hpv : peekMinValue h with
  | error e => rw [hpv] at he; exact absurd he (by simp)
  | ok mv =>
    rw [hpv] at he
    cases hpk : peekMinKeyIndex h with
    | error e => rw [hpk] at he; exact absurd he (by simp)
    | ok mk0 =>
      rw [hpk] at he
      replace he : (match delete cmp h mk0 with
          | Except.error e => (Except.error e : Except HeapErr (Option T × Heap T))
          | Except.ok (fst, h2) => Except.ok (mv, h2)) = Except.ok (w, h') := he
      cases hd : delete cmp h mk0 with
      | error e => rw [hd] at he; exact absurd he (by simp)
      | ok r =>
        rw [hd] at he
        obtain ⟨w2, h2⟩ := r
        replace he : (Except.ok (mv, h2) : Except HeapErr (Option T × Heap T)) =
          .ok (w, h') := he
        have hh : h2 = h' := congrArg Prod.snd (Except.ok.inj he)
        rw [← hh]
        exact delete_inv L hI hd

theorem applyOp_inv {cmp : T → T → Int} (L : LawfulCmp cmp)
    {h h' : Heap T} {op : Op T} {o : Out T} (hI : Inv cmp h)
    (he : applyOp cmp h op = .ok (o, h')) : Inv cmp h' := by
  cases op with
  | insert ki v =>
    replace he : (insert cmp h ki v).map
        (fun h2 => ((Out.unit : Out T), h2)) = .ok (o, h') := he
    obtain ⟨z, hz, hfz⟩ := except_map_ok he
    have hzh : z = h' := congrArg Prod.snd hfz
    rw [← hzh]
    exact insert_inv L hI hz
  | delete ki =>
    replace he : (delete cmp h ki).map
        (fun r => ((Out.val r.1 : Out T), r.2)) = .ok (o, h') := he
    obtain ⟨z, hz, hfz⟩ := except_map_ok he
    have hzh : z.2 = h' := congrArg Prod.snd hfz
    rw [← hzh]
    exact delete_inv L hI hz
  | update ki v =>
    replace he : (update cmp h ki v).map
        (fun r => ((Out.val r.1 : Out T), r.2)) = .ok (o, h') := he
    obtain ⟨z, hz, hfz⟩ := except_map_ok he
    have hzh : z.2 = h' := congrArg Prod.snd hfz
    rw [← hzh]
    exact update_inv L hI hz
  | increase ki v =>
    replace he : (increase cmp h ki v).map
        (fun h2 => ((Out.unit : Out T), h2)) = .ok (o, h') := he
    obtain ⟨z, hz, hfz⟩ := except_map_ok he
    have hzh : z = h' := congrArg Prod.snd hfz
    rw [← hzh]
    exact increase_inv L hI hz
  | decrease ki v =>
    replace he : (decrease cmp h ki v).map
        (fun h2 => ((Out.unit : Out T), h2)) = .ok (o, h') := he
    obtain ⟨z, hz, hfz⟩ := except_map_ok he
    have hzh : z = h' := congrArg Prod.snd hfz
    rw [← hzh]
    exact decrease_inv L hI hz
  | pollMinKeyIndex =>
    replace he : (pollMinKeyIndex cmp h).map
        (fun r => ((Out.key r.1 : Out T), r.2)) = .ok (o, h') := he
    obtain ⟨z, hz, hfz⟩ := except_map_ok he
    have hzh : z.2 = h' := congrArg Prod.snd hfz
    rw [← hzh]
    exact pollMinKeyIndex_inv L hI hz
  | pollMinValue =>
    replace he : (pollMinValue cmp h).map
        (fun r => ((Out.val r.1 : Out T), r.2)) = .ok (o, h') := he
    obtain ⟨z, hz, hfz⟩ := except_map_ok he
    have hzh : z.2 = h' := congrArg Prod.snd hfz
    rw [← hzh]
    exact pollMinValue_inv L hI hz
  | peekMinKeyIndex =>
    replace he : (peekMinKeyIndex h).map
        (fun k => ((Out.key k : Out T), h)) = .ok (o, h') := he
    obtain ⟨z, hz, hfz⟩ := except_map_ok he
    have hzh : h = h' := congrArg Prod.snd hfz
    rw [← hzh]
    exact hI
  | peekMinValue =>
    replace he : (peekMinValue h).map
        (fun v => ((Out.val v : Out T), h)) = .ok (o, h') := he
    obtain ⟨z, hz, hfz⟩ := except_map_ok he
    have hzh : h = h' := congrArg Prod.snd hfz
    rw [← hzh]
    exact hI
  | containsKey ki =>
    replace he : (contains h ki).map
        (fun b => ((Out.bool b : Out T), h)) = .ok (o, h') := he
    obtain ⟨z, hz, hfz⟩ := except_map_ok he
    have hzh : h = h' := congrArg Prod.snd hfz
    rw [← hzh]
    exact hI
  | valueOfKey ki =>
    replace he : (valueOf h ki).map
        (fun v => ((Out.val v : Out T), h)) = .ok (o, h') := he
    obtain ⟨z, hz, hfz⟩ := except_map_ok he
    have hzh : h = h' := congrArg Prod.snd hfz
    rw [← hzh]
    exact hI
  | sizeOf =>
    replace he : (Except.ok ((Out.nat (size h) : Out T), h) :
      Except HeapErr (Out T × Heap T)) = .ok (o, h') := he
    have hzh : h = h' := congrArg Prod.snd (Except.ok.inj he)
    rw [← hzh]
    exact hI
  | emptyCheck =>
    replace he : (Except.ok ((Out.bool (isEmpty h) : Out T), h) :
      Except HeapErr (Out T × Heap T)) = .ok (o, h') := he
    have hzh : h = h' := congrArg Prod.snd (Except.ok.inj he)
    rw [← hzh]
    exact hI
  | minHeapCheck =>
    replace he : (Except.ok ((Out.bool (isMinHeap cmp h) : Out T), h) :
      Except HeapErr (Out T × Heap T)) = .ok (o, h') := he
    have hzh : h = h' := congrArg Prod.snd (Except.ok.inj he)
    rw [← hzh]
    exact hI

theorem mkHeap_inv {cmp : T → T → Int} {degree maxSize : Int} {h : Heap T}
    (he : mkHeap T degree maxSize = .ok h) : Inv cmp h := by
  by_cases hms : maxSize ≤ 0
  · unfold mkHeap at he
    rw [if_pos hms] at he
    exact absurd he (by simp)
  · have he2 : (Except.ok ({
        sz := 0
        N := (max (max 2 degree + 1) maxSize).toNat
        D := (max 2 degree).toNat
        child := (List.range (max (max 2 degree + 1) maxSize).toNat).map
          (fun i => i * (max 2 degree).toNat + 1)
        parent := (List.range (max (max 2 degree + 1) maxSize).toNat).map
          (fun i => ((i : Int) - 1).fdiv (max 2 degree))
        pm := List.replicate (max (max 2 degree + 1) maxSize).toNat (-1)
        im := List.replicate (max (max 2 degree + 1) maxSize).toNat (-1)
        values := List.replicate (max (max 2 degree + 1) maxSize).toNat none } :
        Heap T) : Except HeapErr (Heap T)) = .ok h := by
      rw [← he]
      unfold mkHeap
      rw [if_neg hms]
    have hh : h = _ := (Except.ok.inj he2).symm
    subst hh
    constructor
    · refine ⟨?_, ?_, ?_, Nat.zero_le _, ?_, ?_, ?_, ?_⟩
      · simp
      · simp
      · simp
      · show 1 ≤ (max 2 degree).toNat
        omega
      · intro k hk hne
        exact absurd (getD_replicate (-1) (-1) hk) hne
      · intro s hs
        exact absurd (show s < 0 from hs) (by omega)
      · intro s h0 hsN
        exact getD_replicate (-1) (-1) hsN
    · intro s c hc hch
      exact absurd (show c < 0 from hc) (by omega)

theorem reachable_inv {cmp : T → T → Int} (L : LawfulCmp cmp) {h : Heap T}
    (hr : Reachable cmp h) : Inv cmp h := by
  induction hr with
  | mk degree maxSize h0 he => exact mkHeap_inv he
  | step h0 op o h1 hr0 he ih => exact applyOp_inv L ih he

/-- C1: on every heap state reachable from a fresh construction by successful
public operations, heap order holds: every occupied slot `s` and in-range
child slot `c` hold present values with `value(inverse[s]) ≤ value(inverse[c])`
under the comparator (stated for a comparator consistent with a total order,
the contract the specification imposes on comparators). -/
theorem c1_heap_order {cmp : T → T → Int} (L : LawfulCmp cmp) {h : Heap T}
    (hr : Reachable cmp h) (s c : Nat) (hs : s < h.sz) (hc : c < h.sz)
    (hch : isChild h.D s c) :
    ∃ vs vc, slotVal h s = some vs ∧ slotVal h c = some vc ∧ cmp vs vc ≤ 0 := by
  obtain ⟨mp, ho⟩ := reachable_inv L hr
  obtain ⟨vs, hvs⟩ := mp.occVal hs
  obtain ⟨vc, hvc⟩ := mp.occVal hc
  refine ⟨vs, vc, hvs, hvc, ?_⟩
  have hcs := ho s c hc hch
  unfold less at hcs
  rw [hvc, hvs] at hcs
  exact L.le_of_nlt (lessOpt_some_false.mp hcs)

theorem c1_heap_order_witness :
    ∃ vs vc,
      slotVal (run intCmp exB0 [.insert 0 (some 20), .insert 1 (some 10)]) 0 =
        some vs ∧
      slotVal (run intCmp exB0 [.insert 0 (some 20), .insert 1 (some 10)]) 1 =
        some vc ∧
      intCmp vs vc ≤ 0 :=
  c1_heap_order lawful_intCmp
    (Reachable.step (run intCmp exB0 [.insert 0 (some 20)])
      (.insert 1 (some 10)) .unit
      (run intCmp exB0 [.insert 0 (some 20), .insert 1 (some 10)])
      (Reachable.step exB0 (.insert 0 (some 20)) .unit
        (run intCmp exB0 [.insert 0 (some 20)])
        (Reachable.mk 2 4 exB0 rfl) (by decide)) (by decide))
    0 1 (by decide) (by decide) (by decide)

/-- C2: on every reachable heap state, the position and inverse maps form a
bijection between active keys and occupied slots: an active key `k` has a slot
`position[k]` below `size` with `inverse[position[k]] = k`; an occupied slot
`s < size` carries a valid key `inverse[s]` that is active with
`position[inverse[s]] = s`; and every slot at or beyond `size` (array bounds
included) is unoccupied. -/
theorem c2_bijection {cmp : T → T → Int} (L : LawfulCmp cmp) {h : Heap T}
    (hr : Reachable cmp h) :
    (∀ k, k < h.N → h.pm.getD k (-1) ≠ -1 →
      0 ≤ h.pm.getD k (-1) ∧ (h.pm.getD k (-1)).toNat < h.sz ∧
      h.im.getD (h.pm.getD k (-1)).toNat (-1) = (k : Int)) ∧
    (∀ s, s < h.sz →
      0 ≤ h.im.getD s (-1) ∧ (h.im.getD s (-1)).toNat < h.N ∧
      h.pm.getD (h.im.getD s (-1)).toNat (-1) = (s : Int) ∧
      h.pm.getD (h.im.getD s (-1)).toNat (-1) ≠ -1) ∧
    (∀ s, h.sz ≤ s → h.im.getD s (-1) = -1) := by
  obtain ⟨mp, _⟩ := reachable_inv L hr
  refine ⟨?_, ?_, ?_⟩
  · intro k hk hne
    obtain ⟨a0, aM, aim, _⟩ := mp.act k hk hne
    exact ⟨a0, aM, aim⟩
  · intro s hs
    obtain ⟨o0, oN, opm⟩ := mp.occ s hs
    refine ⟨o0, oN, opm, ?_⟩
    rw [opm]
    omega
  · intro s hs
    by_cases hsN : s < h.N
    · exact mp.unocc s hs hsN
    · have hlen : h.im.length ≤ s := by rw [mp.im_len]; omega
      exact List.getD_eq_default _ _ hlen

theorem c2_bijection_witness :
    (run intCmp exB0 [.insert 0 (some 5), .insert 1 (some 7),
      .delete 0]).im.getD 1 (-1) = -1 :=
  (c2_bijection lawful_intCmp
    (Reachable.step (run intCmp exB0 [.insert 0 (some 5), .insert 1 (some 7)])
      (.delete 0) (.val (some 5))
      (run intCmp exB0 [.insert 0 (some 5), .insert 1 (some 7), .delete 0])
      (Reachable.step (run intCmp exB0 [.insert 0 (some 5)])
        (.insert 1 (some 7)) .unit
        (run intCmp exB0 [.insert 0 (some 5), .insert 1 (some 7)])
        (Reachable.step exB0 (.insert 0 (some 5)) .unit
          (run intCmp exB0 [.insert 0 (some 5)])
          (Reachable.mk 2 4 exB0 rfl) (by decide)) (by decide))
      (by decide))).2.2 1 (by decide)

/-- C10: on a reachable heap that is full (`size = N`), every `insert` fails
even though the code has no explicit capacity check: an out-of-range key is
rejected by `keyInBoundsOrThrow` with `KeyOutOfBounds`, and an in-range key is
necessarily already active (a full heap's position map has no `-1` entry, by
pigeonhole over the bijection of `c2`), so the duplicate check raises
`DuplicateKey`; hence `size` never exceeds `N`. -/
theorem c10_full_insert_fails {cmp : T → T → Int} (L : LawfulCmp cmp)
    {h : Heap T} (hr : Reachable cmp h) (hfull : h.sz = h.N)
    (ki : Int) (v : Option T) :
    ((ki < 0 ∨ (h.N : Int) ≤ ki) →
      insert cmp h ki v = .error .keyOutOfBounds) ∧
    (¬ (ki < 0 ∨ (h.N : Int) ≤ ki) →
      insert cmp h ki v = .error .duplicateKey) := by
  obtain ⟨mp, _⟩ := reachable_inv L hr
  constructor
  · intro hb
    unfold insert contains
    rw [if_pos hb]
  · intro hb
    have hkN : ki.toNat < h.N := by omega
    have hact : h.pm.getD ki.toNat (-1) ≠ -1 := by
      intro hin
      have := maps_not_full_of_inactive mp hkN hin
      omega
    have hbne : (h.pm.getD ki.toNat (-1) != -1) = true := by
      simp only [bne_iff_ne]
      exact hact
    unfold insert contains
    rw [if_neg hb, hbne]

theorem c10_full_insert_fails_witness :
    insert intCmp (run intCmp exF0 [.insert 0 (some 1), .insert 1 (some 2),
      .insert 2 (some 3)]) 7 (some 9) = .error .keyOutOfBounds ∧
    insert intCmp (run intCmp exF0 [.insert 0 (some 1), .insert 1 (some 2),
      .insert 2 (some 3)]) 1 (some 9) = .error .duplicateKey := by
  have hr : Reachable intCmp (run intCmp exF0 [.insert 0 (some 1),
      .insert 1 (some 2), .insert 2 (some 3)]) :=
    Reachable.step (run intCmp exF0 [.insert 0 (some 1), .insert 1 (some 2)])
      (.insert 2 (some 3)) .unit
      (run intCmp exF0 [.insert 0 (some 1), .insert 1 (some 2),
        .insert 2 (some 3)])
      (Reachable.step (run intCmp exF0 [.insert 0 (some 1)])
        (.insert 1 (some 2)) .unit
        (run intCmp exF0 [.insert 0 (some 1), .insert 1 (some 2)])
        (Reachable.step exF0 (.insert 0 (some 1)) .unit
          (run intCmp exF0 [.insert 0 (some 1)])
          (Reachable.mk 2 3 exF0 rfl) (by decide)) (by decide))
      (by decide)
  exact ⟨(c10_full_insert_fails lawful_intCmp hr (by decide) 7 (some 9)).1
      (by decide),
    (c10_full_insert_fails lawful_intCmp hr (by decide) 1 (some 9)).2
      (by decide)⟩

end IndexedDHeap
